import Mathlib

/-!
Shallow embedding of the core of the js-utils repository: the FIFO-backed
priority queue (src/lib/priority-queue.ts, backed by the linked-list FIFO of
src/lib/queue.ts) and the job scheduler (src/lib/job-queue.wip.ts).

The backing FIFO is modelled as a Lean List with its head at the front of
the queue: Queue.enqueue appends at the tail, Queue.dequeue pops the head,
and Queue.toArray is the list itself.  JS numbers used as priorities are
modelled as Int (the data model requires finite integer priorities, so the
initial -Infinity of the selection scan is strictly below every priority).
-/

namespace PQ

/-- One entry of the backing FIFO of PriorityQueue: the source stores
objects of the shape { priority, value }. -/
structure Entry (α : Type) where
  priority : Int
  value : α
deriving DecidableEq

variable {α : Type}

/-- The selection scan shared by dequeue and peek.  The source starts with
highestPriority = -Infinity and replaces the current best exactly when
item.priority > highestPriority (strict), walking the FIFO front to back.
Since every real priority is a finite number, the first item always wins
against -Infinity, so the scan is: take the first item, then replace on
strictly greater priority. -/
def scanBest : Entry α → List (Entry α) → Entry α
  | best, [] => best
  | best, item :: rest =>
      scanBest (if item.priority > best.priority then item else best) rest

/-- The highest-priority item found by the scan, or none on the empty
structure (the isEmpty early return of dequeue/peek). -/
def findHighest : List (Entry α) → Option (Entry α)
  | [] => none
  | item :: rest => some (scanBest item rest)

/-- The rebuild loop of dequeue keeps an item iff
item.priority !== best.priority || item.value !== best.value. -/
def keepEntry [DecidableEq α] (best item : Entry α) : Bool :=
  decide (item.priority ≠ best.priority ∨ item.value ≠ best.value)

/-- PriorityQueue.dequeue: returns null and leaves the structure alone when
empty; otherwise returns the scanned best value and rebuilds the FIFO from
the items that fail to match the best item's (priority, value) pair. -/
def dequeue [DecidableEq α] (q : List (Entry α)) : Option α × List (Entry α) :=
  match findHighest q with
  | none => (none, q)
  | some best => (some best.value, q.filter (keepEntry best))

/-- PriorityQueue.peek: same scan as dequeue, restoring the FIFO unchanged. -/
def peek (q : List (Entry α)) : Option α :=
  match findHighest q with
  | none => none
  | some best => some best.value

/-- PriorityQueue.enqueue appends a { priority, value } pair at the back. -/
def enqueue (q : List (Entry α)) (v : α) (p : Int) : List (Entry α) :=
  q ++ [⟨p, v⟩]

/-- Repeatedly dequeue, collecting the selected entries in order.  Each
round removes at least the selected entry, so q.length rounds exhaust the
structure; the fuel argument only makes the recursion structural. -/
def extractRunAux [DecidableEq α] : Nat → List (Entry α) → List (Entry α)
  | 0, _ => []
  | fuel+1, q =>
    match findHighest q with
    | none => []
    | some best => best :: extractRunAux fuel (q.filter (keepEntry best))

/-- The full sequence of entries obtained by dequeueing until empty. -/
def extractRun [DecidableEq α] (q : List (Entry α)) : List (Entry α) :=
  extractRunAux q.length q

/-- The selected entry is the first entry carrying the maximal priority:
everything before it is strictly smaller, everything after it is no
larger.  This is the FIFO tie-break of the strict greater-than scan. -/
def IsFirstMax (q : List (Entry α)) (best : Entry α) : Prop :=
  ∃ l1 l2, q = l1 ++ best :: l2 ∧ (∀ e ∈ l1, e.priority < best.priority) ∧
    (∀ e ∈ l2, e.priority ≤ best.priority)

end PQ

namespace JQ

/-- Events emitted by JobQueue (the JobQueueEvent enum of
src/lib/job-queue.wip.ts). -/
inductive Ev
  | empty | idle | error | completed | added | next | paused | resumed
deriving DecidableEq

/-- Construction options (JobQueueOptions).  The source tests the optional
numeric fields by truthiness (`if (this.interval && this.intervalCap)`,
`if (this.timeout)`, `if (this.intervalCap)`), under which 0 and undefined
behave identically, so an absent interval, intervalCap or timeout is
modelled as 0. -/
structure Config where
  concurrency : Nat
  timeout : Nat
  autoStart : Bool
  intervalCap : Nat
  interval : Nat
deriving DecidableEq

/-- The per-job options after defaulting (Required<JobOptions>).  A
caller-supplied external AbortSignal is identified by an index; none stands
for the fresh private signal `new AbortController().signal` created when the
caller passes none, which nothing can ever abort. -/
structure JobOpts where
  priority : Int
  signalId : Option Nat
  id : String
deriving DecidableEq

/-- A { job, options } value stored in the pending priority queue.  JS
compares these wrapper objects by reference and every add creates a fresh
one, so each carries a distinct tag recording that object identity; the tag
also stands for the job closure itself, whose outcome is chosen by the
environment when the job settles. -/
structure JobItem where
  tag : Nat
  opts : JobOpts
deriving DecidableEq

/-- An AbortController created by runJob for one run: its abort flag, the
external signal whose abort listener propagates into it, and whether the
timeout timer that would abort it is still pending. -/
structure Ctrl where
  aborted : Bool
  linkedSignal : Option Nat
  timeoutArmed : Bool
deriving DecidableEq

/-- A jobMap entry: { priority, controller?, timeoutId? }.  The controller
is an index into the controller store; timeoutId records the presence of
the stored timeout handle. -/
structure JobInfo where
  priority : Int
  controller : Option Nat
  timeoutId : Bool
deriving DecidableEq

/-- The suspended tail of runJob: while `await job({signal})` is pending the
closure still holds the job's id, its controller index and its local
timeoutId variable. -/
structure InFlight where
  id : String
  ctrl : Nat
  hasTimeout : Bool
deriving DecidableEq

/-- The mutable state of a JobQueue together with the state of the external
world it observes: the abort state of caller-supplied signals and a counter
providing the JS object identity of queued job values. -/
structure St where
  cfg : Config
  queue : List (PQ.Entry JobItem)
  running : Int
  isPaused : Bool
  isDestroyed : Bool
  intervalCount : Nat
  intervalId : Bool
  jobMap : List (String × JobInfo)
  listeners : List (Ev × Nat)
  ctrls : List Ctrl
  inflight : List InFlight
  abortedSignals : List Nat
  nextTag : Nat
deriving DecidableEq

/-- Observable and ghost record of a run: listener invocations (the only
externally visible effect of emit), jobs transitioning pending→running
(runJob reached), jobs skipped by the dispatch loop, and rate-window
resets by the interval timer. -/
inductive Label
  | invoke (lid : Nat) (ev : Ev) (id : Option String)
  | started (id : String) (tag : Nat)
  | skipped (id : String) (tag : Nat)
  | windowReset
deriving DecidableEq

/-- JS Map.get on the insertion-ordered jobMap. -/
def mapGet (m : List (String × JobInfo)) (k : String) : Option JobInfo :=
  match m with
  | [] => none
  | (k', v) :: rest => if k' = k then some v else mapGet rest k

/-- JS Map.set: replace in place when the key is present, else append. -/
def mapSet (m : List (String × JobInfo)) (k : String) (v : JobInfo) :
    List (String × JobInfo) :=
  match m with
  | [] => [(k, v)]
  | (k', v') :: rest =>
      if k' = k then (k, v) :: rest else (k', v') :: mapSet rest k v

/-- JS Map.delete: a Map holds each key at most once, so deleting the
key's entry is the filter dropping that key. -/
def mapDelete (m : List (String × JobInfo)) (k : String) :
    List (String × JobInfo) :=
  m.filter (fun pr => decide (pr.1 ≠ k))

/-- Whether an AbortSignal is aborted; the private fresh signal never is. -/
def sigAborted (s : St) (sig : Option Nat) : Bool :=
  match sig with
  | none => false
  | some k => decide (k ∈ s.abortedSignals)

/-- controller.abort(): sets the (idempotent) abort flag. -/
def abortCtrl (cs : List Ctrl) (ci : Nat) : List Ctrl :=
  match cs.get? ci with
  | some c => cs.set ci { c with aborted := true }
  | none => cs

/-- setTimeout arming the timer that would abort controller ci. -/
def armCtrl (cs : List Ctrl) (ci : Nat) : List Ctrl :=
  match cs.get? ci with
  | some c => cs.set ci { c with timeoutArmed := true }
  | none => cs

/-- clearTimeout of the timer guarding controller ci. -/
def disarmCtrl (cs : List Ctrl) (ci : Nat) : List Ctrl :=
  match cs.get? ci with
  | some c => cs.set ci { c with timeoutArmed := false }
  | none => cs

def ctrlAborted (s : St) (ci : Nat) : Bool :=
  match s.ctrls.get? ci with
  | some c => c.aborted
  | none => false

/-- emit (lines 103-112): nothing on a destroyed queue; otherwise every
listener registered for the event is invoked in registration order.  The
listeners of this state machine are passive observers; a listener that
itself calls back into the queue during emission is treated by the separate
live-iteration model EmitM below. -/
def emitL (s : St) (ev : Ev) (pay : Option String) : List Label :=
  if s.isDestroyed then []
  else (s.listeners.filter (fun pr => decide (pr.1 = ev))).map
    (fun pr => Label.invoke pr.2 ev pay)

/-- The finally block of runJob minus its conditional dispatch re-entry:
clearTimeout(timeoutId) when this run armed one, jobMap.delete(id),
running--. -/
def finallyCleanup (s : St) (id : String) (ci : Nat) (hasT : Bool) : St :=
  let s1 := if hasT then { s with ctrls := disarmCtrl s.ctrls ci } else s
  let s2 := { s1 with jobMap := mapDelete s1.jobMap id }
  { s2 with running := s2.running - 1 }

/-- The synchronous prefix of runJob (lines 197-247): everything up to
`await job({signal})`.  The two destroyed checks and the
controller.signal.aborted check are embedded as written; on the path the
dispatch loop actually takes (not destroyed, external signal not aborted)
they all fall through and the run suspends onto the inflight list.  In the
branch where the controller is already aborted at the pre-await check, the
thrown error runs catch and finally synchronously; that branch's
conditional dispatch re-entry is omitted here, which is harmless because
the dispatch loop never starts an entry whose external signal is already
aborted (the skip path at lines 169-172 removes them first), so the branch
is unreachable from the loop. -/
def runJobStart (s : St) (item : JobItem) : St × List Label :=
  if s.isDestroyed then (s, [])
  else
    let sigAb := sigAborted s item.opts.signalId
    let ci := s.ctrls.length
    let newCtrl : Ctrl :=
      { aborted := sigAb,
        linkedSignal := if sigAb then none else item.opts.signalId,
        timeoutArmed := false }
    let s1 := { s with running := s.running + 1, ctrls := s.ctrls ++ [newCtrl] }
    let s2 :=
      match mapGet s1.jobMap item.opts.id with
      | some info =>
          let m := mapSet s1.jobMap item.opts.id ({ info with controller := some ci })
          { s1 with jobMap := m }
      | none => s1
    let hasT := decide (s2.cfg.timeout ≠ 0)
    let s3 :=
      if s2.cfg.timeout ≠ 0 then
        let sa := { s2 with ctrls := armCtrl s2.ctrls ci }
        match mapGet sa.jobMap item.opts.id with
        | some info =>
            let m := mapSet sa.jobMap item.opts.id ({ info with timeoutId := true })
            { sa with jobMap := m }
        | none => sa
      else s2
    if s3.isDestroyed then
      (finallyCleanup { s3 with ctrls := abortCtrl s3.ctrls ci } item.opts.id ci hasT, [])
    else
      let ls := emitL s3 Ev.next (some item.opts.id)
      if ctrlAborted s3 ci then
        (finallyCleanup s3 item.opts.id ci hasT,
          ls ++ emitL s3 Ev.error (some item.opts.id))
      else
        ({ s3 with inflight :=
            s3.inflight ++ [({ id := item.opts.id, ctrl := ci, hasTimeout := hasT } : InFlight)] },
          Label.started item.opts.id item.tag :: ls)

/-- The while loop of processNextJobs (lines 156-182).  Every iteration
removes at least the selected entry from the queue, so the queue length
bounds the number of iterations; the fuel argument only makes the
recursion structural (processLoop_fuel_eq below shows any fuel at least
the queue length gives the same result). -/
def processLoop : Nat → St → St × List Label
  | 0, s => (s, [])
  | fuel+1, s =>
    if s.isDestroyed = false ∧ s.isPaused = false ∧
        s.running < (s.cfg.concurrency : Int) ∧ s.queue ≠ [] ∧
        (s.cfg.intervalCap = 0 ∨ s.intervalCount < s.cfg.intervalCap) then
      match PQ.dequeue s.queue with
      | (none, _) => (s, [])
      | (some item, q') =>
        let s0 := { s with queue := q' }
        if sigAborted s0 item.opts.signalId then
          let ls := Label.skipped item.opts.id item.tag :: emitL s0 Ev.next none
          let r := processLoop fuel s0
          (r.1, ls ++ r.2)
        else
          let r1 := runJobStart s0 item
          if r1.1.cfg.intervalCap ≠ 0 then
            let s2 := { r1.1 with intervalCount := r1.1.intervalCount + 1 }
            if s2.cfg.intervalCap ≤ s2.intervalCount then (s2, r1.2)
            else
              let r := processLoop fuel s2
              (r.1, r1.2 ++ r.2)
          else
            let r := processLoop fuel r1.1
            (r.1, r1.2 ++ r.2)
    else (s, [])

/-- processNextJobs (lines 147-192): the two early returns, the loop, and
the EMPTY / IDLE emissions. -/
def processNextJobs (s : St) : St × List Label :=
  if s.isDestroyed ∨ s.isPaused then (s, [])
  else if s.cfg.intervalCap ≠ 0 ∧ s.cfg.intervalCap ≤ s.intervalCount then (s, [])
  else
    let r := processLoop s.queue.length s
    if r.1.isDestroyed = false then
      if r.1.queue = [] then
        let l2 := emitL r.1 Ev.empty none
        let l3 := if r.1.running = 0 then emitL r.1 Ev.idle none else []
        (r.1, r.2 ++ l2 ++ l3)
      else r
    else r

/-- add (lines 117-142).  The environment chooses the effective id (the
caller's options.id or the generated random string) and the effective
priority (options.priority || 0). -/
def addF (s : St) (p : Int) (id : String) (sig : Option Nat) :
    String × St × List Label :=
  if s.isDestroyed then ("", s, [])
  else
    let item : JobItem := ⟨s.nextTag, ⟨p, sig, id⟩⟩
    let s1 := { s with nextTag := s.nextTag + 1,
                       jobMap := mapSet s.jobMap id ⟨p, none, false⟩ }
    let s2 := { s1 with queue := PQ.enqueue s1.queue item p }
    let l1 := emitL s2 Ev.added (some id)
    if s2.cfg.autoStart && !s2.isPaused then
      let r := processNextJobs s2
      (id, r.1, l1 ++ r.2)
    else (id, s2, l1)

def startF (s : St) : St × List Label :=
  if s.isDestroyed = false ∧ s.isPaused = false then processNextJobs s else (s, [])

/-- pause (lines 286-292): no destroyed-guard on re-entry beyond the
isDestroyed check; PAUSED is emitted on every non-destroyed call. -/
def pauseF (s : St) : St × List Label :=
  if s.isDestroyed then (s, [])
  else
    let s1 := { s with isPaused := true }
    (s1, emitL s1 Ev.paused none)

def resumeF (s : St) : St × List Label :=
  if s.isDestroyed then (s, [])
  else
    let s1 := { s with isPaused := false }
    let l1 := emitL s1 Ev.resumed none
    let r := processNextJobs s1
    (r.1, l1 ++ r.2)

/-- clear (lines 309-321): new empty selector; registry entries without an
active controller are dropped. -/
def clearF (s : St) : St :=
  if s.isDestroyed then s
  else { s with queue := [],
                jobMap := s.jobMap.filter (fun pr => pr.2.controller.isSome) }

def sizeF (s : St) : Nat := if s.isDestroyed then 0 else s.queue.length

def activeF (s : St) : Int := if s.isDestroyed then 0 else s.running

def pendingF (s : St) : Nat := if s.isDestroyed then 0 else s.queue.length

/-- setPriority (lines 347-390). -/
def setPriorityF (s : St) (id : String) (p : Int) : Bool × St :=
  if s.isDestroyed then (false, s)
  else
    match mapGet s.jobMap id with
    | none => (false, s)
    | some info =>
      if info.controller.isSome then
        (true, { s with jobMap := mapSet s.jobMap id ({ info with priority := p }) })
      else
        let found := s.queue.any (fun e => decide (e.value.opts.id = id))
        let q' := s.queue.map (fun e =>
          if e.value.opts.id = id then
            ⟨p, { e.value with opts := { e.value.opts with priority := p } }⟩
          else e)
        let s1 := { s with queue := q' }
        if found then
          (true, { s1 with jobMap := mapSet s1.jobMap id ⟨p, none, false⟩ })
        else (false, s1)

/-- abort (lines 395-436). -/
def abortF (s : St) (id : String) : Bool × St :=
  if s.isDestroyed then (false, s)
  else
    match mapGet s.jobMap id with
    | none => (false, s)
    | some info =>
      match info.controller with
      | some ci => (true, { s with ctrls := abortCtrl s.ctrls ci })
      | none =>
        let found := s.queue.any (fun e => decide (e.value.opts.id = id))
        let q' := s.queue.filter (fun e => decide (e.value.opts.id ≠ id))
        let s1 := { s with queue := q' }
        if found then (true, { s1 with jobMap := mapDelete s1.jobMap id })
        else (false, s1)

def onF (s : St) (ev : Ev) (lid : Nat) : St :=
  if s.isDestroyed then s else { s with listeners := s.listeners ++ [(ev, lid)] }

/-- off removes the first occurrence of the listener in the event's list
(indexOf + splice). -/
def removeFirst : List (Ev × Nat) → Ev → Nat → List (Ev × Nat)
  | [], _, _ => []
  | pr :: rest, ev, lid =>
      if pr = (ev, lid) then rest else pr :: removeFirst rest ev lid

def offF (s : St) (ev : Ev) (lid : Nat) : St :=
  if s.isDestroyed then s else { s with listeners := removeFirst s.listeners ev lid }

/-- once registers a self-removing wrapper through on; in this passive
model only the registration effect is represented (the wrapper's behavior
during a live emission belongs to EmitM). -/
def onceF (s : St) (ev : Ev) (lid : Nat) : St :=
  if s.isDestroyed then s else { s with listeners := s.listeners ++ [(ev, lid)] }

def removeAllListenersF (s : St) (ev : Option Ev) : St :=
  if s.isDestroyed then s
  else
    match ev with
    | some e => { s with listeners := s.listeners.filter (fun pr => decide (pr.1 ≠ e)) }
    | none => { s with listeners := [] }

/-- onEmpty (lines 441-449): registers, then invokes the callback at once
when the queue is already empty and not destroyed. -/
def onEmptyF (s : St) (lid : Nat) : St × List Label :=
  let s1 := onF s Ev.empty lid
  if s1.isDestroyed = false ∧ s1.queue = [] then
    (s1, [Label.invoke lid Ev.empty none])
  else (s1, [])

/-- onIdle (lines 454-462). -/
def onIdleF (s : St) (lid : Nat) : St × List Label :=
  let s1 := onF s Ev.idle lid
  if s1.isDestroyed = false ∧ s1.queue = [] ∧ s1.running = 0 then
    (s1, [Label.invoke lid Ev.idle none])
  else (s1, [])

/-- destroy (lines 533-563). -/
def destroyF (s : St) : St × List Label :=
  if s.isDestroyed then (s, [])
  else
    let s1 := { s with isDestroyed := true, isPaused := true, intervalId := false }
    let cs := s1.jobMap.foldl
      (fun cs pr =>
        let cs1 :=
          match pr.2.controller with
          | some ci => abortCtrl cs ci
          | none => cs
        if pr.2.timeoutId then
          match pr.2.controller with
          | some ci => disarmCtrl cs1 ci
          | none => cs1
        else cs1)
      s1.ctrls
    ({ s1 with ctrls := cs, jobMap := [], queue := [], listeners := [],
               running := 0, intervalCount := 0 }, [])

/-- The setInterval callback (lines 87-97): only meaningful while the
recurring timer is active; clears itself when the queue was destroyed,
otherwise resets the window counter and re-runs dispatch. -/
def tickF (s : St) : St × List Label :=
  if s.intervalId = false then (s, [])
  else if s.isDestroyed then ({ s with intervalId := false }, [])
  else
    let s1 := { s with intervalCount := 0 }
    let r := processNextJobs s1
    (r.1, Label.windowReset :: r.2)

/-- The tail of runJob after `await job({signal})` settles (lines 249-270):
COMPLETED or ERROR (suppressed once destroyed), then the finally block and
its conditional dispatch re-entry.  The environment chooses which pending
run settles and whether the job resolved or rejected. -/
def finishF (s : St) (k : Nat) (ok : Bool) : St × List Label :=
  match s.inflight.get? k with
  | none => (s, [])
  | some e =>
    let s1 := { s with inflight := s.inflight.eraseIdx k }
    let l1 := if ok then emitL s1 Ev.completed (some e.id)
              else emitL s1 Ev.error (some e.id)
    let s2 := if e.hasTimeout then { s1 with ctrls := disarmCtrl s1.ctrls e.ctrl }
              else s1
    let s3 := { s2 with jobMap := mapDelete s2.jobMap e.id }
    let s4 := { s3 with running := s3.running - 1 }
    if s4.isDestroyed = false ∧ s4.isPaused = false then
      let r := processNextJobs s4
      (r.1, l1 ++ r.2)
    else (s4, l1)

/-- The caller aborts one of its own AbortSignals: a signal aborts at most
once, and the abort listeners installed by running jobs propagate it into
their controllers. -/
def abortExternalF (s : St) (sig : Nat) : St :=
  if sig ∈ s.abortedSignals then s
  else
    { s with abortedSignals := sig :: s.abortedSignals,
             ctrls := s.ctrls.map (fun c =>
               if c.linkedSignal = some sig then { c with aborted := true } else c) }

/-- A pending per-job timeout timer fires: controller.abort(timeout). -/
def fireTimeoutF (s : St) (ci : Nat) : St :=
  match s.ctrls.get? ci with
  | some c =>
      if c.timeoutArmed then
        { s with ctrls := s.ctrls.set ci { c with aborted := true, timeoutArmed := false } }
      else s
  | none => s

/-- The commands of the environment: the public API plus the asynchronous
events (a pending run settling, a timer firing, an external signal
aborting). -/
inductive Cmd
  | add (p : Int) (id : String) (sig : Option Nat)
  | start
  | pause
  | resume
  | clear
  | destroy
  | tick
  | setPriority (id : String) (p : Int)
  | abortJob (id : String)
  | listen (ev : Ev) (lid : Nat)
  | unlisten (ev : Ev) (lid : Nat)
  | finish (k : Nat) (ok : Bool)
  | fireTimeout (ci : Nat)
  | abortExternal (sig : Nat)
deriving DecidableEq

def step (s : St) (c : Cmd) : St × List Label :=
  match c with
  | .add p id sig => (addF s p id sig).2
  | .start => startF s
  | .pause => pauseF s
  | .resume => resumeF s
  | .clear => (clearF s, [])
  | .destroy => destroyF s
  | .tick => tickF s
  | .setPriority id p => ((setPriorityF s id p).2, [])
  | .abortJob id => ((abortF s id).2, [])
  | .listen ev lid => (onF s ev lid, [])
  | .unlisten ev lid => (offF s ev lid, [])
  | .finish k ok => finishF s k ok
  | .fireTimeout ci => (fireTimeoutF s ci, [])
  | .abortExternal sig => (abortExternalF s sig, [])

def run (s : St) : List Cmd → St × List Label
  | [] => (s, [])
  | c :: cs =>
    let r := step s c
    let r2 := run r.1 cs
    (r2.1, r.2 ++ r2.2)

/-- The constructor (lines 62-73): setupInterval arms the recurring timer
exactly when both interval and intervalCap are truthy. -/
def init (cfg : Config) : St :=
  { cfg := cfg, queue := [], running := 0, isPaused := false,
    isDestroyed := false, intervalCount := 0,
    intervalId := decide (cfg.interval ≠ 0) && decide (cfg.intervalCap ≠ 0),
    jobMap := [], listeners := [], ctrls := [], inflight := [],
    abortedSignals := [], nextTag := 0 }

/-- Jobs started since the last window reset, folded over one label. -/
def wstep (n : Nat) : Label → Nat
  | .started _ _ => n + 1
  | .windowReset => 0
  | _ => n

def wfold (n : Nat) (t : List Label) : Nat := t.foldl wstep n

/-- Holds when, at every point along the trace, the running count of jobs
started since the last window reset stays within cap. -/
def startsOkB (cap : Nat) : Nat → List Label → Bool
  | _, [] => true
  | n, l :: t => decide (wstep n l ≤ cap) && startsOkB cap (wstep n l) t

/-- A label that carries no trace of the given job id. -/
def idFreeB (id : String) : Label → Bool
  | .invoke _ _ (some j) => decide (j ≠ id)
  | .invoke _ _ none => true
  | .started j _ => decide (j ≠ id)
  | .skipped j _ => decide (j ≠ id)
  | .windowReset => true

/-- The concurrency invariant of C3: the running counter is bounded by the
configured concurrency. -/
def Inv3 (s : St) : Prop := s.running ≤ (s.cfg.concurrency : Int)

/-- No identity of the given job id anywhere in the scheduler: not in the
registry, not among the queued entries, not among the suspended runs. -/
def IdClear (s : St) (j : String) : Prop :=
  mapGet s.jobMap j = none ∧ (∀ e ∈ s.queue, e.value.opts.id ≠ j) ∧
  (∀ e ∈ s.inflight, e.id ≠ j)

/-- The command is not a submission reusing the given job id. -/
def notAddOf (j : String) : Cmd → Bool
  | .add _ id _ => decide (id ≠ j)
  | _ => true

/-- A concrete configuration: concurrency 2, no timeout, autoStart, no
rate window. -/
def cfgA : Config := ⟨2, 0, true, 0, 0⟩

/-- A concrete configuration with autoStart disabled. -/
def cfgC : Config := ⟨2, 0, false, 0, 0⟩

/-- A concrete scheduler with one job admitted and started. -/
def sRunA : St := (run (init cfgA) [Cmd.add 0 "a" none]).1

/-- A concrete scheduler with one job admitted while autoStart is off, so
the job stays pending. -/
def sPendB : St := (run (init cfgC) [Cmd.add 0 "b" none]).1

/-- A concrete scheduler holding one pending job whose external signal is
already aborted. -/
def sSkipC : St := (run (init cfgC) [Cmd.abortExternal 7, Cmd.add 0 "c" (some 7)]).1

/-- A concrete configuration with a rate window: cap 1 every 5. -/
def cfgB : Config := ⟨2, 0, true, 1, 5⟩

/-- A concrete destroyed scheduler. -/
def sDead : St := (destroyF (init cfgA)).1

/-- The shape of every label an emit produces. -/
def IsInvoke (l : Label) : Prop := ∃ lid ev pay, l = Label.invoke lid ev pay

end JQ

namespace EmitM

/-- The for..of loop of emit (lines 106-111) over one event's listener
array, when an invoked listener may itself append listeners for the same
event through on (lines 467-478).  A JS array iterator re-checks its index
against the array's current length at every step, so elements pushed during
the iteration are visited as well.  behav x lists the listeners that
listener x appends when invoked; the result is the invocation sequence, or
none when fuel runs out (a listener chain that keeps appending listeners
forever also never terminates in JS). -/
def emitGo (behav : Nat → List Nat) : Nat → Nat → List Nat → Option (List Nat)
  | 0, _, _ => none
  | fuel+1, i, arr =>
    if h : i < arr.length then
      match emitGo behav fuel (i+1) (arr ++ behav (arr.get ⟨i, h⟩)) with
      | some rest => some (arr.get ⟨i, h⟩ :: rest)
      | none => none
    else some []

/-- Emission over the whole listener array of one event. -/
def emitRun (behav : Nat → List Nat) (fuel : Nat) (arr : List Nat) :
    Option (List Nat) :=
  emitGo behav fuel 0 arr

end EmitM

namespace PQ

variable {α : Type}

theorem scanBest_isFirstMax (l : List (Entry α)) (b : Entry α) :
    IsFirstMax (b :: l) (scanBest b l) := by
  induction l generalizing b with
  | nil => exact ⟨[], [], rfl, by simp, by simp⟩
  | cons x rest ih =>
    by_cases hx : x.priority > b.priority
    · have hs : scanBest b (x :: rest) = scanBest x rest := by
        simp [scanBest, hx]
      rw [hs]
      obtain ⟨l1, l2, hsplit, hl1, hl2⟩ := ih x
      have hb : b.priority < (scanBest x rest).priority := by
        cases l1 with
        | nil =>
          simp only [List.nil_append] at hsplit
          have h1 : x = scanBest x rest := (List.cons.inj hsplit).1
          rw [← h1]; exact hx
        | cons y l1' =>
          rw [List.cons_append] at hsplit
          have h1 : x = y := (List.cons.inj hsplit).1
          subst h1
          exact lt_trans hx (hl1 x (List.mem_cons_self _ _))
      refine ⟨b :: l1, l2, ?_, ?_, hl2⟩
      · rw [List.cons_append, ← hsplit]
      · intro e he
        rcases List.mem_cons.mp he with rfl | he'
        · exact hb
        · exact hl1 e he'
    · have hxle : x.priority ≤ b.priority := le_of_not_lt hx
      have hs : scanBest b (x :: rest) = scanBest b rest := by
        simp [scanBest, hx]
      rw [hs]
      obtain ⟨l1, l2, hsplit, hl1, hl2⟩ := ih b
      cases l1 with
      | nil =>
        simp only [List.nil_append] at hsplit
        have h1 : b = scanBest b rest := (List.cons.inj hsplit).1
        have h2 : rest = l2 := (List.cons.inj hsplit).2
        refine ⟨[], x :: rest, by rw [List.nil_append, ← h1], by simp, ?_⟩
        intro e he
        rcases List.mem_cons.mp he with rfl | he'
        · rw [← h1]; exact hxle
        · exact hl2 e (h2 ▸ he')
      | cons y l1' =>
        rw [List.cons_append] at hsplit
        have h1 : b = y := (List.cons.inj hsplit).1
        have h2 : rest = l1' ++ scanBest b rest :: l2 := (List.cons.inj hsplit).2
        subst h1
        have hb : b.priority < (scanBest b rest).priority :=
          hl1 b (List.mem_cons_self _ _)
        refine ⟨b :: x :: l1', l2, ?_, ?_, hl2⟩
        · rw [List.cons_append, List.cons_append, ← h2]
        · intro e he
          rcases List.mem_cons.mp he with rfl | he'
          · exact hb
          · rcases List.mem_cons.mp he' with rfl | he''
            · exact lt_of_le_of_lt hxle hb
            · exact hl1 e (List.mem_cons_of_mem _ he'')

theorem findHighest_isFirstMax {q : List (Entry α)} {best : Entry α}
    (h : findHighest q = some best) : IsFirstMax q best := by
  cases q with
  | nil => simp [findHighest] at h
  | cons x rest =>
    simp only [findHighest, Option.some.injEq] at h
    rw [← h]
    exact scanBest_isFirstMax rest x

theorem findHighest_mem {q : List (Entry α)} {best : Entry α}
    (h : findHighest q = some best) : best ∈ q := by
  obtain ⟨l1, l2, hsplit, -, -⟩ := findHighest_isFirstMax h
  rw [hsplit]; exact List.mem_append_right _ (List.mem_cons_self _ _)

theorem findHighest_max {q : List (Entry α)} {best : Entry α}
    (h : findHighest q = some best) : ∀ e ∈ q, e.priority ≤ best.priority := by
  obtain ⟨l1, l2, hsplit, hl1, hl2⟩ := findHighest_isFirstMax h
  intro e he
  rw [hsplit] at he
  rcases List.mem_append.mp he with h1 | h2
  · exact le_of_lt (hl1 e h1)
  · rcases List.mem_cons.mp h2 with rfl | h3
    · exact le_refl _
    · exact hl2 e h3

theorem findHighest_eq_none_iff (q : List (Entry α)) :
    findHighest q = none ↔ q = [] := by
  cases q <;> simp [findHighest]

variable [DecidableEq α]

theorem keepEntry_self (best : Entry α) : keepEntry best best = false := by
  simp [keepEntry]

theorem keepEntry_eq_true_iff (best item : Entry α) :
    keepEntry best item = true ↔ item ≠ best := by
  simp only [keepEntry, decide_eq_true_eq]
  constructor
  · rintro (h | h) rfl <;> exact h rfl
  · intro h
    by_contra hc
    push_neg at hc
    exact h (by cases best; cases item; simp_all)

theorem extractRunAux_subset (fuel : Nat) (q : List (Entry α)) :
    ∀ x ∈ extractRunAux fuel q, x ∈ q := by
  induction fuel generalizing q with
  | zero => simp [extractRunAux]
  | succ n ih =>
    intro x hx
    simp only [extractRunAux] at hx
    cases hf : findHighest q with
    | none => simp [hf] at hx
    | some best =>
      rw [hf] at hx
      rcases List.mem_cons.mp hx with rfl | hx'
      · exact findHighest_mem hf
      · exact List.mem_of_mem_filter (ih _ x hx')

/-- The priorities of successive dequeues never increase: each later
selection comes from a filtered remainder of the earlier structure, whose
entries are all bounded by the earlier selected priority. -/
theorem extractRunAux_chain (fuel : Nat) (q : List (Entry α)) :
    List.Chain' (fun a b => b.priority ≤ a.priority) (extractRunAux fuel q) := by
  induction fuel generalizing q with
  | zero => simp [extractRunAux]
  | succ n ih =>
    simp only [extractRunAux]
    cases hf : findHighest q with
    | none => simp
    | some best =>
      refine List.chain'_cons'.mpr ⟨?_, ih _⟩
      intro y hy
      have hy' : y ∈ extractRunAux n (q.filter (keepEntry best)) :=
        List.mem_of_mem_head? hy
      have hyq : y ∈ q.filter (keepEntry best) := extractRunAux_subset _ _ y hy'
      exact findHighest_max hf y (List.mem_of_mem_filter hyq)

theorem filter_keepEntry_of_ne (q : List (Entry α)) (best : Entry α) (p : Int)
    (hne : best.priority ≠ p) :
    (q.filter (keepEntry best)).filter (fun e => decide (e.priority = p)) =
      q.filter (fun e => decide (e.priority = p)) := by
  rw [List.filter_filter]
  apply List.filter_congr
  intro e _
  by_cases he : e.priority = p
  · have hk : keepEntry best e = true := by
      simp only [keepEntry, decide_eq_true_eq]
      left; rw [he]; exact fun hc => hne hc.symm
    simp [he, hk]
  · simp [he]

/-- Among entries of one fixed priority, the extraction order is a
sub-list of the insertion order: equal-priority entries come out FIFO. -/
theorem extractRunAux_filter_sublist (fuel : Nat) (q : List (Entry α)) (p : Int) :
    List.Sublist ((extractRunAux fuel q).filter (fun e => decide (e.priority = p)))
      (q.filter (fun e => decide (e.priority = p))) := by
  induction fuel generalizing q with
  | zero => simp [extractRunAux]
  | succ n ih =>
    simp only [extractRunAux]
    cases hf : findHighest q with
    | none => simp
    | some best =>
      by_cases hbp : best.priority = p
      · obtain ⟨l1, l2, hsplit, hl1, hl2⟩ := findHighest_isFirstMax hf
        have hfl1 : l1.filter (fun e => decide (e.priority = p)) = [] := by
          rw [List.filter_eq_nil_iff]
          intro e he
          have := hl1 e he
          simp only [decide_eq_true_eq]
          intro hc; rw [hc, ← hbp] at this; exact lt_irrefl _ this
        have hq : q.filter (fun e => decide (e.priority = p)) =
            best :: l2.filter (fun e => decide (e.priority = p)) := by
          rw [hsplit, List.filter_append, hfl1, List.nil_append, List.filter_cons,
            if_pos (by simp [hbp])]
        have hqf : List.Sublist
            ((q.filter (keepEntry best)).filter (fun e => decide (e.priority = p)))
            (l2.filter (fun e => decide (e.priority = p))) := by
          rw [hsplit, List.filter_append, List.filter_cons, if_neg (by simp [keepEntry_self])]
          rw [List.filter_append]
          have h1 : (l1.filter (keepEntry best)).filter (fun e => decide (e.priority = p)) = [] := by
            rw [List.filter_eq_nil_iff]
            intro e he
            have he' : e ∈ l1 := List.mem_of_mem_filter he
            have := hl1 e he'
            simp only [decide_eq_true_eq]
            intro hc; rw [hc, ← hbp] at this; exact lt_irrefl _ this
          rw [h1, List.nil_append]
          exact List.Sublist.filter _ (List.filter_sublist _)
        rw [List.filter_cons, if_pos (by simp [hbp]), hq]
        exact List.Sublist.cons₂ best ((ih _).trans hqf)
      · rw [List.filter_cons, if_neg (by simp [hbp])]
        calc List.Sublist
              ((extractRunAux n (q.filter (keepEntry best))).filter
                (fun e => decide (e.priority = p)))
              ((q.filter (keepEntry best)).filter (fun e => decide (e.priority = p))) := ih _
          _ = q.filter (fun e => decide (e.priority = p)) :=
              filter_keepEntry_of_ne q best p hbp

theorem filter_keepEntry_length_lt {q : List (Entry α)} {best : Entry α}
    (h : findHighest q = some best) :
    (q.filter (keepEntry best)).length < q.length := by
  rw [List.length_filter_lt_length_iff_exists]
  exact ⟨best, findHighest_mem h, by simp [keepEntry_self]⟩

theorem extractRunAux_nil (fuel : Nat) : extractRunAux fuel ([] : List (Entry α)) = [] := by
  cases fuel <;> simp [extractRunAux, findHighest]

/-- Any fuel at least the queue length produces the same extraction run:
the truncation case of the fuel recursion is never reached. -/
theorem extractRunAux_fuel_eq :
    ∀ (f1 f2 : Nat) (q : List (Entry α)), q.length ≤ f1 → q.length ≤ f2 →
      extractRunAux f1 q = extractRunAux f2 q := by
  intro f1
  induction f1 with
  | zero =>
    intro f2 q h1 _
    have hq : q = [] := List.length_eq_zero.mp (Nat.le_zero.mp h1)
    subst hq
    rw [extractRunAux_nil, extractRunAux_nil]
  | succ n ih =>
    intro f2 q h1 h2
    cases f2 with
    | zero =>
      have hq : q = [] := List.length_eq_zero.mp (Nat.le_zero.mp h2)
      subst hq
      rw [extractRunAux_nil, extractRunAux_nil]
    | succ m =>
      cases hf : findHighest q with
      | none => simp only [extractRunAux, hf]
      | some best =>
        have hlt := filter_keepEntry_length_lt hf
        simp only [extractRunAux, hf]
        congr 1
        exact ih m _ (Nat.le_of_lt_succ (lt_of_lt_of_le hlt h1))
          (Nat.le_of_lt_succ (lt_of_lt_of_le hlt h2))

theorem keepEntry_eq_decide (best item : Entry α) :
    keepEntry best item = decide (item ≠ best) := by
  by_cases h : item = best
  · subst h; simp [keepEntry_self]
  · simp [(keepEntry_eq_true_iff best item).mpr h, h]

theorem filter_keepEntry_eq_erase {q : List (Entry α)} {best : Entry α}
    (hnd : q.Nodup) : q.filter (keepEntry best) = q.erase best := by
  rw [hnd.erase_eq_filter best]
  apply List.filter_congr
  intro x _
  rw [keepEntry_eq_decide]
  by_cases h : x = best <;> simp [h]

theorem dequeue_some {q : List (Entry α)} {v : α} {q' : List (Entry α)}
    (h : dequeue q = (some v, q')) :
    ∃ best, findHighest q = some best ∧ v = best.value ∧
      q' = q.filter (keepEntry best) := by
  unfold dequeue at h
  cases hf : findHighest q with
  | none => rw [hf] at h; exact Option.noConfusion (congrArg Prod.fst h)
  | some best =>
    rw [hf] at h
    have h1 : some best.value = some v := congrArg Prod.fst h
    have h2 : q.filter (keepEntry best) = q' := congrArg Prod.snd h
    exact ⟨best, rfl, (Option.some.inj h1).symm, h2.symm⟩

end PQ

namespace JQ

theorem emitL_shape (s : St) (ev : Ev) (pay : Option String) :
    ∀ l ∈ emitL s ev pay, ∃ lid, l = Label.invoke lid ev pay := by
  intro l hl
  unfold emitL at hl
  split at hl
  · simp at hl
  · simp only [List.mem_map] at hl
    obtain ⟨pr, -, rfl⟩ := hl
    exact ⟨pr.2, rfl⟩

theorem emitL_destroyed {s : St} (h : s.isDestroyed = true) (ev : Ev)
    (pay : Option String) : emitL s ev pay = [] := by
  unfold emitL
  simp [h]

theorem finallyCleanup_eq (s : St) (id : String) (ci : Nat) (hasT : Bool) :
    finallyCleanup s id ci hasT =
      { s with ctrls := if hasT then disarmCtrl s.ctrls ci else s.ctrls,
               jobMap := mapDelete s.jobMap id,
               running := s.running - 1 } := by
  unfold finallyCleanup
  cases hasT <;> simp

theorem runJobStart_char (s : St) (item : JobItem) :
    (runJobStart s item).1.cfg = s.cfg ∧
    (runJobStart s item).1.isDestroyed = s.isDestroyed ∧
    (runJobStart s item).1.isPaused = s.isPaused ∧
    (runJobStart s item).1.intervalCount = s.intervalCount ∧
    (runJobStart s item).1.queue = s.queue ∧
    (runJobStart s item).1.listeners = s.listeners ∧
    (runJobStart s item).1.abortedSignals = s.abortedSignals ∧
    (runJobStart s item).1.running ≤ s.running + 1 := by
  unfold runJobStart
  split
  · exact ⟨rfl, rfl, rfl, rfl, rfl, rfl, rfl, by dsimp only; omega⟩
  · simp only [finallyCleanup_eq]
    repeat' split
    all_goals refine ⟨rfl, rfl, rfl, rfl, rfl, rfl, rfl, ?_⟩
    all_goals dsimp only
    all_goals omega

theorem processLoop_char : ∀ (fuel : Nat) (s : St),
    (processLoop fuel s).1.cfg = s.cfg ∧
    (processLoop fuel s).1.isDestroyed = s.isDestroyed ∧
    (processLoop fuel s).1.isPaused = s.isPaused ∧
    (processLoop fuel s).1.listeners = s.listeners ∧
    (processLoop fuel s).1.abortedSignals = s.abortedSignals := by
  intro fuel
  induction fuel with
  | zero => intro s; exact ⟨rfl, rfl, rfl, rfl, rfl⟩
  | succ n ih =>
    intro s
    unfold processLoop
    split
    · split
      · exact ⟨rfl, rfl, rfl, rfl, rfl⟩
      · rename_i item q' heq
        dsimp only
        split
        · exact ih _
        · obtain ⟨hc, hd, hp, -, -, hl, ha, -⟩ :=
            runJobStart_char { s with queue := q' } item
          split
          · split
            · exact ⟨hc, hd, hp, hl, ha⟩
            · obtain ⟨ic, id', ip, il, ia⟩ := ih
                { (runJobStart { s with queue := q' } item).1 with
                  intervalCount :=
                    (runJobStart { s with queue := q' } item).1.intervalCount + 1 }
              exact ⟨ic.trans hc, id'.trans hd, ip.trans hp, il.trans hl, ia.trans ha⟩
          · obtain ⟨ic, id', ip, il, ia⟩ :=
              ih (runJobStart { s with queue := q' } item).1
            exact ⟨ic.trans hc, id'.trans hd, ip.trans hp, il.trans hl, ia.trans ha⟩
    · exact ⟨rfl, rfl, rfl, rfl, rfl⟩

theorem processNextJobs_char (s : St) :
    (processNextJobs s).1.cfg = s.cfg ∧
    (processNextJobs s).1.isDestroyed = s.isDestroyed ∧
    (processNextJobs s).1.isPaused = s.isPaused ∧
    (processNextJobs s).1.listeners = s.listeners ∧
    (processNextJobs s).1.abortedSignals = s.abortedSignals := by
  unfold processNextJobs
  split
  · exact ⟨rfl, rfl, rfl, rfl, rfl⟩
  · split
    · exact ⟨rfl, rfl, rfl, rfl, rfl⟩
    · have h := processLoop_char s.queue.length s
      dsimp only
      split
      · split
        · exact h
        · exact h
      · exact h

theorem processLoop_inv3 : ∀ (fuel : Nat) (s : St), Inv3 s →
    Inv3 (processLoop fuel s).1 := by
  intro fuel
  induction fuel with
  | zero => intro s h; exact h
  | succ n ih =>
    intro s h
    unfold processLoop
    split
    · rename_i hguard
      split
      · exact h
      · rename_i item q' heq
        dsimp only
        split
        · exact ih _ h
        · obtain ⟨hc, -, -, -, -, -, -, hr⟩ :=
            runJobStart_char { s with queue := q' } item
          have hlt : s.running < (s.cfg.concurrency : Int) := hguard.2.2.1
          have hinv1 : Inv3 (runJobStart { s with queue := q' } item).1 := by
            unfold Inv3
            rw [hc]
            dsimp only at hr ⊢
            omega
          split
          · split
            · exact hinv1
            · exact ih _ hinv1
          · exact ih _ hinv1
    · exact h

theorem processNextJobs_inv3 (s : St) (h : Inv3 s) : Inv3 (processNextJobs s).1 := by
  unfold processNextJobs
  split
  · exact h
  · split
    · exact h
    · have h2 := processLoop_inv3 s.queue.length s h
      dsimp only
      split
      · split
        · exact h2
        · exact h2
      · exact h2

theorem step_char (s : St) (c : Cmd) : (step s c).1.cfg = s.cfg := by
  cases c with
  | add p id sig =>
    simp only [step]
    unfold addF
    try dsimp only
    split
    · rfl
    · split
      · exact (processNextJobs_char _).1
      · rfl
  | start =>
    simp only [step]
    unfold startF
    try dsimp only
    split
    · exact (processNextJobs_char _).1
    · rfl
  | pause => simp only [step]; unfold pauseF; (try dsimp only); split <;> rfl
  | resume =>
    simp only [step]
    unfold resumeF
    try dsimp only
    split
    · rfl
    · exact (processNextJobs_char _).1
  | clear => simp only [step]; unfold clearF; split <;> rfl
  | destroy => simp only [step]; unfold destroyF; (try dsimp only); split <;> rfl
  | tick =>
    simp only [step]
    unfold tickF
    try dsimp only
    split
    · rfl
    · split
      · rfl
      · exact (processNextJobs_char _).1
  | setPriority id p =>
    simp only [step]
    unfold setPriorityF
    try dsimp only
    repeat' split
    all_goals rfl
  | abortJob id =>
    simp only [step]
    unfold abortF
    try dsimp only
    repeat' split
    all_goals rfl
  | listen ev lid => simp only [step]; unfold onF; split <;> rfl
  | unlisten ev lid => simp only [step]; unfold offF; split <;> rfl
  | finish k ok =>
    simp only [step]
    unfold finishF
    try dsimp only
    repeat' split
    all_goals first
      | rfl
      | exact (processNextJobs_char _).1
  | fireTimeout ci =>
    simp only [step]
    unfold fireTimeoutF
    try dsimp only
    repeat' split
    all_goals rfl
  | abortExternal sig =>
    simp only [step]
    unfold abortExternalF
    try dsimp only
    split <;> rfl

theorem step_inv3 (s : St) (c : Cmd) (h : Inv3 s) : Inv3 (step s c).1 := by
  cases c with
  | add p id sig =>
    simp only [step]
    unfold addF
    try dsimp only
    split
    · exact h
    · split
      · exact processNextJobs_inv3 _ h
      · exact h
  | start =>
    simp only [step]
    unfold startF
    try dsimp only
    split
    · exact processNextJobs_inv3 _ h
    · exact h
  | pause => simp only [step]; unfold pauseF; (try dsimp only); split <;> exact h
  | resume =>
    simp only [step]
    unfold resumeF
    try dsimp only
    split
    · exact h
    · exact processNextJobs_inv3 _ h
  | clear => simp only [step]; unfold clearF; split <;> exact h
  | destroy =>
    simp only [step]
    unfold destroyF
    try dsimp only
    split
    · exact h
    · unfold Inv3
      dsimp only
      omega
  | tick =>
    simp only [step]
    unfold tickF
    try dsimp only
    split
    · exact h
    · split
      · exact h
      · exact processNextJobs_inv3 _ h
  | setPriority id p =>
    simp only [step]
    unfold setPriorityF
    try dsimp only
    repeat' split
    all_goals exact h
  | abortJob id =>
    simp only [step]
    unfold abortF
    try dsimp only
    repeat' split
    all_goals exact h
  | listen ev lid => simp only [step]; unfold onF; split <;> exact h
  | unlisten ev lid => simp only [step]; unfold offF; split <;> exact h
  | finish k ok =>
    simp only [step]
    unfold finishF
    try dsimp only
    repeat' split
    all_goals first
      | exact h
      | (apply processNextJobs_inv3; unfold Inv3 at h ⊢; dsimp only; omega)
      | (unfold Inv3 at h ⊢; dsimp only; omega)
  | fireTimeout ci =>
    simp only [step]
    unfold fireTimeoutF
    try dsimp only
    repeat' split
    all_goals exact h
  | abortExternal sig =>
    simp only [step]
    unfold abortExternalF
    try dsimp only
    split <;> exact h

theorem run_char (s : St) (cmds : List Cmd) : (run s cmds).1.cfg = s.cfg := by
  induction cmds generalizing s with
  | nil => rfl
  | cons c cs ih => exact (ih (step s c).1).trans (step_char s c)

theorem run_inv3 (s : St) (cmds : List Cmd) (h : Inv3 s) : Inv3 (run s cmds).1 := by
  induction cmds generalizing s with
  | nil => exact h
  | cons c cs ih => exact ih (step s c).1 (step_inv3 s c h)

theorem mapGet_filter_none {m : List (String × JobInfo)} {j : String}
    {p : String × JobInfo → Bool} (h : mapGet m j = none) :
    mapGet (m.filter p) j = none := by
  induction m with
  | nil => rfl
  | cons pr rest ih =>
    obtain ⟨k', v⟩ := pr
    by_cases hk : k' = j
    · simp [mapGet, hk] at h
    · simp only [mapGet, hk, if_false] at h
      rw [List.filter_cons]
      split
      · simp only [mapGet, hk, if_false]
        exact ih h
      · exact ih h

theorem mapGet_mapDelete_none {m : List (String × JobInfo)} {j : String}
    (k : String) (h : mapGet m j = none) :
    mapGet (mapDelete m k) j = none := by
  unfold mapDelete
  exact mapGet_filter_none h

theorem mapGet_mapDelete_self (m : List (String × JobInfo)) (j : String) :
    mapGet (mapDelete m j) j = none := by
  unfold mapDelete
  induction m with
  | nil => rfl
  | cons pr rest ih =>
    obtain ⟨k', v⟩ := pr
    rw [List.filter_cons]
    split
    · rename_i hp
      have hk : k' ≠ j := by simpa using hp
      simp only [mapGet, if_neg hk]
      exact ih
    · exact ih

theorem mapGet_mapSet_ne (m : List (String × JobInfo)) (k : String)
    (v : JobInfo) (j : String) (h : k ≠ j) :
    mapGet (mapSet m k v) j = mapGet m j := by
  induction m with
  | nil => simp only [mapSet, mapGet, if_neg h]
  | cons pr rest ih =>
    obtain ⟨k', v'⟩ := pr
    simp only [mapSet]
    split
    · rename_i hk
      have hk'j : k' ≠ j := by rw [hk]; exact h
      simp only [mapGet, if_neg h, if_neg hk'j]
    · rename_i hk
      by_cases hj : k' = j
      · simp only [mapGet, if_pos hj]
      · simp only [mapGet, if_neg hj]
        exact ih

theorem runJobStart_mapGet_none (s : St) (item : JobItem) (j : String)
    (h : mapGet s.jobMap j = none) :
    mapGet (runJobStart s item).1.jobMap j = none := by
  unfold runJobStart
  split
  · exact h
  · dsimp only
    repeat' split
    all_goals simp only [finallyCleanup_eq]
    all_goals
      repeat first
        | exact h
        | (apply mapGet_mapDelete_none)
        | (rw [mapGet_mapSet_ne _ _ _ _ (by rintro rfl; simp_all)])

theorem processLoop_mapGet_none : ∀ (fuel : Nat) (s : St) (j : String),
    mapGet s.jobMap j = none → mapGet (processLoop fuel s).1.jobMap j = none := by
  intro fuel
  induction fuel with
  | zero => intro s j h; exact h
  | succ n ih =>
    intro s j h
    unfold processLoop
    split
    · split
      · exact h
      · rename_i item q' heq
        dsimp only
        split
        · exact ih _ _ h
        · have h1 := runJobStart_mapGet_none { s with queue := q' } item j h
          split
          · split
            · exact h1
            · exact ih _ _ h1
          · exact ih _ _ h1
    · exact h

theorem processNextJobs_mapGet_none (s : St) (j : String)
    (h : mapGet s.jobMap j = none) :
    mapGet (processNextJobs s).1.jobMap j = none := by
  unfold processNextJobs
  split
  · exact h
  · split
    · exact h
    · have h2 := processLoop_mapGet_none s.queue.length s j h
      dsimp only
      split
      · split
        · exact h2
        · exact h2
      · exact h2

theorem sigAborted_congr {s s' : St} (h : s.abortedSignals = s'.abortedSignals)
    (x : Option Nat) : sigAborted s x = sigAborted s' x := by
  unfold sigAborted
  cases x with
  | none => rfl
  | some k => rw [h]

theorem processLoop_allskip : ∀ (fuel : Nat) (s : St),
    (∀ e ∈ s.queue, sigAborted s e.value.opts.signalId = true) →
    (processLoop fuel s).1.jobMap = s.jobMap := by
  intro fuel
  induction fuel with
  | zero => intro s _; rfl
  | succ n ih =>
    intro s hall
    unfold processLoop
    split
    · split
      · rfl
      · rename_i item q' heq
        obtain ⟨best, hf, hv, hq⟩ := PQ.dequeue_some heq
        have hbest : best ∈ s.queue := PQ.findHighest_mem hf
        have hsig : sigAborted s item.opts.signalId = true := by
          rw [hv]; exact hall best hbest
        dsimp only
        split
        · rename_i hcond
          have hrest : ∀ e ∈ ({ s with queue := q' } : St).queue,
              sigAborted ({ s with queue := q' } : St) e.value.opts.signalId = true := by
            intro e he
            rw [@sigAborted_congr { s with queue := q' } s rfl]
            apply hall
            rw [hq] at he
            exact List.mem_of_mem_filter he
          exact ih _ hrest
        · rename_i hcond
          rw [@sigAborted_congr { s with queue := q' } s rfl] at hcond
          exact absurd hsig hcond
    · rfl

theorem processNextJobs_allskip (s : St)
    (hall : ∀ e ∈ s.queue, sigAborted s e.value.opts.signalId = true) :
    (processNextJobs s).1.jobMap = s.jobMap := by
  unfold processNextJobs
  split
  · rfl
  · split
    · rfl
    · have h2 := processLoop_allskip s.queue.length s hall
      dsimp only
      split
      · split
        · exact h2
        · exact h2
      · exact h2

theorem wfold_nil (n : Nat) : wfold n [] = n := rfl

theorem wfold_append (n : Nat) (t1 t2 : List Label) :
    wfold n (t1 ++ t2) = wfold (wfold n t1) t2 := by
  unfold wfold
  exact List.foldl_append _ _ _ _

theorem startsOkB_append (cap : Nat) (t2 : List Label) :
    ∀ (t1 : List Label) (n : Nat),
      startsOkB cap n (t1 ++ t2) =
        (startsOkB cap n t1 && startsOkB cap (wfold n t1) t2) := by
  intro t1
  induction t1 with
  | nil => intro n; simp [startsOkB, wfold]
  | cons l t ih =>
    intro n
    have h1 : (l :: t) ++ t2 = l :: (t ++ t2) := rfl
    rw [h1]
    have h2 : startsOkB cap n (l :: (t ++ t2)) =
        (decide (wstep n l ≤ cap) && startsOkB cap (wstep n l) (t ++ t2)) := rfl
    have h3 : startsOkB cap n (l :: t) =
        (decide (wstep n l ≤ cap) && startsOkB cap (wstep n l) t) := rfl
    have h4 : wfold n (l :: t) = wfold (wstep n l) t := rfl
    rw [h2, h3, h4, ih, Bool.and_assoc]

theorem wstep_invoke (n : Nat) {l : Label} (h : IsInvoke l) : wstep n l = n := by
  obtain ⟨lid, ev, pay, rfl⟩ := h
  rfl

theorem wfold_invoke_list (n : Nat) : ∀ (ls : List Label),
    (∀ l ∈ ls, IsInvoke l) → wfold n ls = n := by
  intro ls
  induction ls with
  | nil => intro _; rfl
  | cons l t ih =>
    intro h
    have h1 : wfold n (l :: t) = wfold (wstep n l) t := rfl
    rw [h1, wstep_invoke n (h l (List.mem_cons_self _ _))]
    exact ih (fun x hx => h x (List.mem_cons_of_mem _ hx))

theorem startsOkB_invoke_list (cap n : Nat) (hn : n ≤ cap) :
    ∀ (ls : List Label), (∀ l ∈ ls, IsInvoke l) → startsOkB cap n ls = true := by
  intro ls
  induction ls with
  | nil => intro _; rfl
  | cons l t ih =>
    intro h
    have h1 : startsOkB cap n (l :: t) =
        (decide (wstep n l ≤ cap) && startsOkB cap (wstep n l) t) := rfl
    rw [h1, wstep_invoke n (h l (List.mem_cons_self _ _))]
    simp only [Bool.and_eq_true, decide_eq_true_eq]
    exact ⟨hn, ih (fun x hx => h x (List.mem_cons_of_mem _ hx))⟩

theorem emitL_invoke_list (s : St) (ev : Ev) (pay : Option String) :
    ∀ l ∈ emitL s ev pay, IsInvoke l := by
  intro l hl
  obtain ⟨lid, rfl⟩ := emitL_shape s ev pay l hl
  exact ⟨lid, ev, pay, rfl⟩

theorem get?_append_len (cs : List Ctrl) (c : Ctrl) :
    (cs ++ [c]).get? cs.length = some c := by
  induction cs with
  | nil => rfl
  | cons x rest ih => exact ih

theorem get?_set_self (l : List Ctrl) :
    ∀ (i : Nat) (a : Ctrl), i < l.length → (l.set i a).get? i = some a := by
  induction l with
  | nil => intro i a h; simp at h
  | cons x rest ih =>
    intro i a h
    cases i with
    | zero => rfl
    | succ m => exact ih m a (by simpa using h)

/-- On the path the dispatch loop actually takes (not destroyed, external
signal not aborted) runJob's synchronous prefix always suspends the run:
its labels are the pending-to-running transition followed by the NEXT
notifications. -/
theorem runJobStart_normal (s : St) (item : JobItem)
    (hd : s.isDestroyed = false)
    (hsig : sigAborted s item.opts.signalId = false) :
    ∃ ls, (runJobStart s item).2 = Label.started item.opts.id item.tag :: ls ∧
      ∀ l ∈ ls, IsInvoke l := by
  have hnd : ¬(s.isDestroyed = true) := by simp [hd]
  have hlen : ∀ c : Ctrl, s.ctrls.length < (s.ctrls ++ [c]).length := by
    intro c; rw [List.length_append]; simp
  unfold runJobStart
  rw [if_neg hnd]
  dsimp only
  simp only [hsig, Bool.false_eq_true, if_false]
  cases hget1 : mapGet s.jobMap item.opts.id with
  | some info =>
    simp only [hget1]
    by_cases hto : s.cfg.timeout ≠ 0
    · simp only [if_pos hto]
      cases hget2 : mapGet (mapSet s.jobMap item.opts.id
          { info with controller := some s.ctrls.length }) item.opts.id with
      | some info2 =>
        simp only [hget2]
        dsimp only
        rw [if_neg hnd]
        have hca : ctrlAborted
            { s with running := s.running + 1,
                     ctrls := armCtrl (s.ctrls ++
                       [{ aborted := false, linkedSignal := item.opts.signalId,
                          timeoutArmed := false }]) s.ctrls.length,
                     jobMap := mapSet (mapSet s.jobMap item.opts.id
                       { info with controller := some s.ctrls.length })
                       item.opts.id { info2 with timeoutId := true } }
            s.ctrls.length = false := by
          unfold ctrlAborted armCtrl
          dsimp only
          rw [get?_append_len]
          rw [get?_set_self _ _ _ (hlen _)]
        rw [hca]
        rw [if_neg (by decide)]
        exact ⟨_, rfl, emitL_invoke_list _ _ _⟩
      | none =>
        simp only [hget2]
        dsimp only
        rw [if_neg hnd]
        have hca : ctrlAborted
            { s with running := s.running + 1,
                     ctrls := armCtrl (s.ctrls ++
                       [{ aborted := false, linkedSignal := item.opts.signalId,
                          timeoutArmed := false }]) s.ctrls.length,
                     jobMap := mapSet s.jobMap item.opts.id
                       { info with controller := some s.ctrls.length } }
            s.ctrls.length = false := by
          unfold ctrlAborted armCtrl
          dsimp only
          rw [get?_append_len]
          rw [get?_set_self _ _ _ (hlen _)]
        rw [hca]
        rw [if_neg (by decide)]
        exact ⟨_, rfl, emitL_invoke_list _ _ _⟩
    · simp only [if_neg hto]
      dsimp only
      rw [if_neg hnd]
      have hca : ctrlAborted
          { s with running := s.running + 1,
                   ctrls := s.ctrls ++
                     [{ aborted := false, linkedSignal := item.opts.signalId,
                        timeoutArmed := false }],
                   jobMap := mapSet s.jobMap item.opts.id
                     { info with controller := some s.ctrls.length } }
          s.ctrls.length = false := by
        unfold ctrlAborted
        dsimp only
        rw [get?_append_len]
      rw [hca]
      rw [if_neg (by decide)]
      exact ⟨_, rfl, emitL_invoke_list _ _ _⟩
  | none =>
    simp only [hget1]
    by_cases hto : s.cfg.timeout ≠ 0
    · simp only [if_pos hto]
      cases hget2 : mapGet s.jobMap item.opts.id with
      | some info2 =>
        rw [hget1] at hget2
        exact Option.noConfusion hget2
      | none =>
        rw [if_neg hnd]
        have hca : ctrlAborted
            { s with running := s.running + 1,
                     ctrls := armCtrl (s.ctrls ++
                       [{ aborted := false, linkedSignal := item.opts.signalId,
                          timeoutArmed := false }]) s.ctrls.length }
            s.ctrls.length = false := by
          unfold ctrlAborted armCtrl
          dsimp only
          rw [get?_append_len]
          rw [get?_set_self _ _ _ (hlen _)]
        rw [hca]
        rw [if_neg (by decide)]
        exact ⟨_, rfl, emitL_invoke_list _ _ _⟩
    · simp only [if_neg hto]
      dsimp only
      rw [if_neg hnd]
      have hca : ctrlAborted
          { s with running := s.running + 1,
                   ctrls := s.ctrls ++
                     [{ aborted := false, linkedSignal := item.opts.signalId,
                        timeoutArmed := false }] }
          s.ctrls.length = false := by
        unfold ctrlAborted
        dsimp only
        rw [get?_append_len]
      rw [hca]
      rw [if_neg (by decide)]
      exact ⟨_, rfl, emitL_invoke_list _ _ _⟩

/-- The dispatch loop respects the rate window: with a nonzero cap, the
count of jobs started since the last reset never passes the cap, and it
always equals the intervalCount the loop leaves behind — in particular
skipped entries bump neither. -/
theorem processLoop_window : ∀ (fuel : Nat) (s : St) (n : Nat),
    s.cfg.intervalCap ≠ 0 → s.isDestroyed = false → n = s.intervalCount →
    n ≤ s.cfg.intervalCap →
    startsOkB s.cfg.intervalCap n (processLoop fuel s).2 = true ∧
    wfold n (processLoop fuel s).2 = (processLoop fuel s).1.intervalCount ∧
    (processLoop fuel s).1.intervalCount ≤ s.cfg.intervalCap := by
  intro fuel
  induction fuel with
  | zero =>
    intro s n hcap hd hn hb
    exact ⟨rfl, hn, hn ▸ hb⟩
  | succ m ih =>
    intro s n hcap hd hn hb
    unfold processLoop
    split
    · rename_i hguard
      split
      · exact ⟨rfl, hn, hn ▸ hb⟩
      · rename_i item q' heq
        dsimp only
        split
        · obtain ⟨ih1, ih2, ih3⟩ := ih { s with queue := q' } n hcap hd hn hb
          have hemit : ∀ l ∈ emitL { s with queue := q' } Ev.next none, IsInvoke l :=
            emitL_invoke_list _ _ _
          have hw : wfold n (Label.skipped item.opts.id item.tag ::
              emitL { s with queue := q' } Ev.next none) = n := by
            have h1 : wfold n (Label.skipped item.opts.id item.tag ::
                emitL { s with queue := q' } Ev.next none) =
                wfold n (emitL { s with queue := q' } Ev.next none) := rfl
            rw [h1]
            exact wfold_invoke_list n _ hemit
          refine ⟨?_, ?_, ih3⟩
          · rw [startsOkB_append, hw]
            simp only [Bool.and_eq_true]
            refine ⟨?_, ih1⟩
            have h2 : startsOkB s.cfg.intervalCap n
                (Label.skipped item.opts.id item.tag ::
                  emitL { s with queue := q' } Ev.next none) =
                (decide (n ≤ s.cfg.intervalCap) && startsOkB s.cfg.intervalCap n
                  (emitL { s with queue := q' } Ev.next none)) := rfl
            rw [h2]
            simp only [Bool.and_eq_true, decide_eq_true_eq]
            exact ⟨hb, startsOkB_invoke_list _ n hb _ hemit⟩
          · rw [wfold_append, hw]
            exact ih2
        · rename_i hs0
          have hsig0 : sigAborted { s with queue := q' } item.opts.signalId = false := by
            revert hs0
            cases sigAborted { s with queue := q' } item.opts.signalId <;> simp
          obtain ⟨hc, hdp, hpp, hic, hqp, hlp, hap, hrr⟩ :=
            runJobStart_char { s with queue := q' } item
          obtain ⟨ls, hls, hinv⟩ := runJobStart_normal { s with queue := q' } item hd hsig0
          have hlt : n < s.cfg.intervalCap := by
            rcases hguard.2.2.2.2 with h0 | h0
            · exact absurd h0 hcap
            · rw [hn]; exact h0
          have hwr : wfold n (runJobStart { s with queue := q' } item).2 = n + 1 := by
            rw [hls]
            have h1 : wfold n (Label.started item.opts.id item.tag :: ls) =
                wfold (n + 1) ls := rfl
            rw [h1]
            exact wfold_invoke_list (n + 1) ls hinv
          have hso : startsOkB s.cfg.intervalCap n
              (runJobStart { s with queue := q' } item).2 = true := by
            rw [hls]
            have h1 : startsOkB s.cfg.intervalCap n
                (Label.started item.opts.id item.tag :: ls) =
                (decide (n + 1 ≤ s.cfg.intervalCap) &&
                  startsOkB s.cfg.intervalCap (n + 1) ls) := rfl
            rw [h1]
            simp only [Bool.and_eq_true, decide_eq_true_eq]
            exact ⟨hlt, startsOkB_invoke_list _ (n + 1) hlt _ hinv⟩
          have hic' : (runJobStart { s with queue := q' } item).1.intervalCount = n := by
            rw [hic]
            dsimp only
            omega
          split
          · split
            · refine ⟨hso, ?_, ?_⟩
              · rw [hwr]
                dsimp only
                rw [hic']
              · dsimp only
                rw [hic']
                omega
            · rename_i hbreak
              have hcap2 : ({ (runJobStart { s with queue := q' } item).1 with
                  intervalCount :=
                    (runJobStart { s with queue := q' } item).1.intervalCount + 1 } :
                  St).cfg.intervalCap ≠ 0 := by
                dsimp only
                rw [hc]
                exact hcap
              have hd2 : ({ (runJobStart { s with queue := q' } item).1 with
                  intervalCount :=
                    (runJobStart { s with queue := q' } item).1.intervalCount + 1 } :
                  St).isDestroyed = false := by
                dsimp only
                rw [hdp]
                exact hd
              have hn2 : n + 1 = ({ (runJobStart { s with queue := q' } item).1 with
                  intervalCount :=
                    (runJobStart { s with queue := q' } item).1.intervalCount + 1 } :
                  St).intervalCount := by
                dsimp only
                rw [hic']
              have hb2 : n + 1 ≤ ({ (runJobStart { s with queue := q' } item).1 with
                  intervalCount :=
                    (runJobStart { s with queue := q' } item).1.intervalCount + 1 } :
                  St).cfg.intervalCap := by
                dsimp only
                rw [hc]
                exact hlt
              obtain ⟨j1, j2, j3⟩ := ih _ (n + 1) hcap2 hd2 hn2 hb2
              have hcapeq : ({ (runJobStart { s with queue := q' } item).1 with
                  intervalCount :=
                    (runJobStart { s with queue := q' } item).1.intervalCount + 1 } :
                  St).cfg.intervalCap = s.cfg.intervalCap := by
                dsimp only
                rw [hc]
              rw [hcapeq] at j1 j3
              refine ⟨?_, ?_, j3⟩
              · rw [startsOkB_append, hwr]
                simp only [Bool.and_eq_true]
                exact ⟨hso, j1⟩
              · rw [wfold_append, hwr]
                exact j2
          · rename_i hcontra
            exfalso
            exact hcontra (by rw [hc]; exact hcap)
    · exact ⟨rfl, hn, hn ▸ hb⟩

theorem processNextJobs_window (s : St) (n : Nat)
    (hcap : s.cfg.intervalCap ≠ 0) (hd : s.isDestroyed = false)
    (hn : n = s.intervalCount) (hb : n ≤ s.cfg.intervalCap) :
    startsOkB s.cfg.intervalCap n (processNextJobs s).2 = true ∧
    wfold n (processNextJobs s).2 = (processNextJobs s).1.intervalCount ∧
    (processNextJobs s).1.intervalCount ≤ s.cfg.intervalCap := by
  unfold processNextJobs
  split
  · exact ⟨rfl, hn, hn ▸ hb⟩
  · split
    · exact ⟨rfl, hn, hn ▸ hb⟩
    · obtain ⟨h1, h2, h3⟩ := processLoop_window s.queue.length s n hcap hd hn hb
      dsimp only
      split
      · split
        · have hl2 : ∀ l ∈ emitL (processLoop s.queue.length s).1 Ev.empty none,
              IsInvoke l := emitL_invoke_list _ _ _
          have hl3 : ∀ l ∈ (if (processLoop s.queue.length s).1.running = 0 then
              emitL (processLoop s.queue.length s).1 Ev.idle none else []),
              IsInvoke l := by
            split
            · exact emitL_invoke_list _ _ _
            · intro l hl; simp at hl
          refine ⟨?_, ?_, h3⟩
          · rw [startsOkB_append, startsOkB_append]
            simp only [Bool.and_eq_true]
            refine ⟨⟨h1, ?_⟩, ?_⟩
            · rw [h2]
              exact startsOkB_invoke_list _ _ h3 _ hl2
            · rw [wfold_append, h2, wfold_invoke_list _ _ hl2]
              exact startsOkB_invoke_list _ _ h3 _ hl3
          · rw [wfold_append, wfold_append, h2, wfold_invoke_list _ _ hl2,
              wfold_invoke_list _ _ hl3]
        · exact ⟨h1, h2, h3⟩
      · exact ⟨h1, h2, h3⟩

/-- A destroyed scheduler emits nothing and stays destroyed with its
window counter untouched, for every command. -/
theorem step_destroyed (s : St) (c : Cmd) (h : s.isDestroyed = true) :
    (step s c).2 = [] ∧ (step s c).1.isDestroyed = true ∧
    (step s c).1.intervalCount = s.intervalCount ∧
    (step s c).1.cfg = s.cfg := by
  cases c with
  | add p id sig =>
    simp only [step]
    unfold addF
    rw [if_pos h]
    simp [h]
  | start =>
    simp only [step]
    unfold startF
    rw [if_neg (by simp [h])]
    simp [h]
  | pause =>
    simp only [step]
    unfold pauseF
    rw [if_pos h]
    simp [h]
  | resume =>
    simp only [step]
    unfold resumeF
    rw [if_pos h]
    simp [h]
  | clear =>
    simp only [step]
    unfold clearF
    rw [if_pos h]
    simp [h]
  | destroy =>
    simp only [step]
    unfold destroyF
    rw [if_pos h]
    simp [h]
  | tick =>
    simp only [step]
    unfold tickF
    repeat' split
    all_goals simp [h]
  | setPriority id p =>
    simp only [step]
    unfold setPriorityF
    rw [if_pos h]
    simp [h]
  | abortJob id =>
    simp only [step]
    unfold abortF
    rw [if_pos h]
    simp [h]
  | listen ev lid =>
    simp only [step]
    unfold onF
    rw [if_pos h]
    simp [h]
  | unlisten ev lid =>
    simp only [step]
    unfold offF
    rw [if_pos h]
    simp [h]
  | finish k ok =>
    simp only [step]
    unfold finishF
    split
    · simp [h]
    · dsimp only
      repeat' split
      all_goals simp_all [emitL_destroyed]
  | fireTimeout ci =>
    simp only [step]
    unfold fireTimeoutF
    repeat' split
    all_goals simp [h]
  | abortExternal sig =>
    simp only [step]
    unfold abortExternalF
    split
    · simp [h]
    · simp [h]

/-- Composing a burst of pure notifications with a dispatch pass. -/
theorem window_compose (cap : Nat) (s' : St) (n : Nat) (pre : List Label)
    (hpre : ∀ l ∈ pre, IsInvoke l)
    (hceq : s'.cfg.intervalCap = cap)
    (hcap : cap ≠ 0) (hd : s'.isDestroyed = false)
    (hn : n = s'.intervalCount) (hb : n ≤ cap) :
    startsOkB cap n (pre ++ (processNextJobs s').2) = true ∧
    wfold n (pre ++ (processNextJobs s').2) ≤ cap ∧
    wfold n (pre ++ (processNextJobs s').2) =
      (processNextJobs s').1.intervalCount := by
  subst hceq
  obtain ⟨w1, w2, w3⟩ := processNextJobs_window s' n hcap hd hn hb
  have hpw : wfold n pre = n := wfold_invoke_list n pre hpre
  refine ⟨?_, ?_, ?_⟩
  · rw [startsOkB_append, hpw]
    simp only [Bool.and_eq_true]
    exact ⟨startsOkB_invoke_list _ n hb _ hpre, w1⟩
  · rw [wfold_append, hpw, w2]
    exact w3
  · rw [wfold_append, hpw]
    exact w2

theorem step_window (s : St) (c : Cmd) (n : Nat)
    (hcap : s.cfg.intervalCap ≠ 0) (hb : n ≤ s.cfg.intervalCap)
    (hn : s.isDestroyed = false → n = s.intervalCount) :
    startsOkB s.cfg.intervalCap n (step s c).2 = true ∧
    wfold n (step s c).2 ≤ s.cfg.intervalCap ∧
    ((step s c).1.isDestroyed = false →
      wfold n (step s c).2 = (step s c).1.intervalCount) := by
  by_cases hd : s.isDestroyed = true
  · obtain ⟨hl, hd2, hic, hcfg⟩ := step_destroyed s c hd
    rw [hl]
    refine ⟨rfl, hb, ?_⟩
    intro hfalse
    rw [hd2] at hfalse
    exact absurd hfalse (by simp)
  · have hdf : s.isDestroyed = false := by revert hd; cases s.isDestroyed <;> simp
    have hn' : n = s.intervalCount := hn hdf
    have basic : ∀ (ls : List Label), (∀ l ∈ ls, IsInvoke l) →
        startsOkB s.cfg.intervalCap n ls = true ∧
        wfold n ls ≤ s.cfg.intervalCap ∧ wfold n ls = n := by
      intro ls hls
      have hw := wfold_invoke_list n ls hls
      exact ⟨startsOkB_invoke_list _ n hb _ hls, by rw [hw]; exact hb, hw⟩
    cases c with
    | add p id sig =>
      simp only [step]
      unfold addF
      rw [if_neg hd]
      dsimp only
      split
      · dsimp only
        refine ⟨?_, ?_, fun hdd => ?_⟩
        · refine (window_compose s.cfg.intervalCap _ n _ ?_ ?_ ?_ ?_ ?_ ?_).1
          all_goals first
            | exact emitL_invoke_list _ _ _
            | exact hcap
            | exact hdf
            | exact hn'
            | exact hb
            | rfl
        · refine (window_compose s.cfg.intervalCap _ n _ ?_ ?_ ?_ ?_ ?_ ?_).2.1
          all_goals first
            | exact emitL_invoke_list _ _ _
            | exact hcap
            | exact hdf
            | exact hn'
            | exact hb
            | rfl
        · refine (window_compose s.cfg.intervalCap _ n _ ?_ ?_ ?_ ?_ ?_ ?_).2.2
          all_goals first
            | exact emitL_invoke_list _ _ _
            | exact hcap
            | exact hdf
            | exact hn'
            | exact hb
            | rfl
      · dsimp only
        let X : St :=
          { s with
            nextTag := s.nextTag + 1,
            jobMap := mapSet s.jobMap id
              { priority := p, controller := none, timeoutId := false },
            queue := PQ.enqueue s.queue
              { tag := s.nextTag,
                opts := { priority := p, signalId := sig, id := id } } p }
        have B := basic _ (emitL_invoke_list X Ev.added (some id))
        exact ⟨B.1, B.2.1, fun _ => by
          have h2 := B.2.2
          rw [h2]
          exact hn'⟩
    | start =>
      simp only [step]
      unfold startF
      split
      · obtain ⟨w1, w2, w3⟩ := processNextJobs_window s n hcap hdf hn' hb
        exact ⟨w1, by rw [w2]; exact w3, fun _ => w2⟩
      · exact ⟨rfl, hb, fun _ => hn'⟩
    | pause =>
      simp only [step]
      unfold pauseF
      rw [if_neg hd]
      have B := basic _ (emitL_invoke_list { s with isPaused := true } Ev.paused none)
      exact ⟨B.1, B.2.1, fun _ => by rw [B.2.2]; exact hn'⟩
    | resume =>
      simp only [step]
      unfold resumeF
      rw [if_neg hd]
      dsimp only
      refine ⟨?_, ?_, fun hdd => ?_⟩
      · refine (window_compose s.cfg.intervalCap _ n _ ?_ ?_ ?_ ?_ ?_ ?_).1
        all_goals first
          | exact emitL_invoke_list _ _ _
          | exact hcap
          | exact hdf
          | exact hn'
          | exact hb
          | rfl
      · refine (window_compose s.cfg.intervalCap _ n _ ?_ ?_ ?_ ?_ ?_ ?_).2.1
        all_goals first
          | exact emitL_invoke_list _ _ _
          | exact hcap
          | exact hdf
          | exact hn'
          | exact hb
          | rfl
      · refine (window_compose s.cfg.intervalCap _ n _ ?_ ?_ ?_ ?_ ?_ ?_).2.2
        all_goals first
          | exact emitL_invoke_list _ _ _
          | exact hcap
          | exact hdf
          | exact hn'
          | exact hb
          | rfl
    | clear =>
      simp only [step]
      unfold clearF
      rw [if_neg hd]
      exact ⟨rfl, hb, fun _ => hn'⟩
    | destroy =>
      simp only [step]
      unfold destroyF
      rw [if_neg hd]
      refine ⟨rfl, hb, ?_⟩
      intro hfalse
      dsimp only at hfalse
      exact absurd hfalse (by simp)
    | tick =>
      simp only [step]
      unfold tickF
      by_cases hii : s.intervalId = false
      · rw [if_pos hii]
        exact ⟨rfl, hb, fun _ => hn'⟩
      · rw [if_neg hii, if_neg hd]
        dsimp only
        obtain ⟨w1, w2, w3⟩ := processNextJobs_window
          { s with intervalCount := 0 } 0 hcap hdf rfl (Nat.zero_le _)
        have hres : ∀ t, wfold n (Label.windowReset :: t) = wfold 0 t := by
          intro t; rfl
        refine ⟨?_, ?_, ?_⟩
        · have h1 : startsOkB s.cfg.intervalCap n
              (Label.windowReset :: (processNextJobs { s with intervalCount := 0 }).2) =
              (decide ((0 : Nat) ≤ s.cfg.intervalCap) &&
                startsOkB s.cfg.intervalCap 0
                  (processNextJobs { s with intervalCount := 0 }).2) := rfl
          rw [h1]
          simp only [Bool.and_eq_true, decide_eq_true_eq]
          exact ⟨Nat.zero_le _, w1⟩
        · rw [hres, w2]
          exact w3
        · intro _
          rw [hres]
          exact w2
    | setPriority id p =>
      simp only [step]
      unfold setPriorityF
      rw [if_neg hd]
      dsimp only
      repeat' split
      all_goals exact ⟨rfl, hb, fun _ => hn'⟩
    | abortJob id =>
      simp only [step]
      unfold abortF
      rw [if_neg hd]
      dsimp only
      repeat' split
      all_goals exact ⟨rfl, hb, fun _ => hn'⟩
    | listen ev lid =>
      simp only [step]
      unfold onF
      rw [if_neg hd]
      exact ⟨rfl, hb, fun _ => hn'⟩
    | unlisten ev lid =>
      simp only [step]
      unfold offF
      rw [if_neg hd]
      exact ⟨rfl, hb, fun _ => hn'⟩
    | finish k ok =>
      simp only [step]
      unfold finishF
      split
      · exact ⟨rfl, hb, fun _ => hn'⟩
      · rename_i e hget
        dsimp only
        repeat' split
        all_goals first
          | (refine ⟨?_, ?_, fun hdd => ?_⟩
             · refine (window_compose s.cfg.intervalCap _ n _ ?_ ?_ ?_ ?_ ?_ ?_).1
               all_goals first
                 | exact emitL_invoke_list _ _ _
                 | exact hcap
                 | exact hdf
                 | exact hn'
                 | exact hb
                 | rfl
             · refine (window_compose s.cfg.intervalCap _ n _ ?_ ?_ ?_ ?_ ?_ ?_).2.1
               all_goals first
                 | exact emitL_invoke_list _ _ _
                 | exact hcap
                 | exact hdf
                 | exact hn'
                 | exact hb
                 | rfl
             · refine (window_compose s.cfg.intervalCap _ n _ ?_ ?_ ?_ ?_ ?_ ?_).2.2
               all_goals first
                 | exact emitL_invoke_list _ _ _
                 | exact hcap
                 | exact hdf
                 | exact hn'
                 | exact hb
                 | rfl)
          | (refine ⟨?_, ?_, fun hdd => ?_⟩
             · exact startsOkB_invoke_list _ n hb _ (emitL_invoke_list _ _ _)
             · exact (wfold_invoke_list n _ (emitL_invoke_list _ _ _)).trans_le hb
             · exact (wfold_invoke_list n _ (emitL_invoke_list _ _ _)).trans hn')
    | fireTimeout ci =>
      simp only [step]
      unfold fireTimeoutF
      repeat' split
      all_goals exact ⟨rfl, hb, fun _ => hn'⟩
    | abortExternal sig =>
      simp only [step]
      unfold abortExternalF
      split
      · exact ⟨rfl, hb, fun _ => hn'⟩
      · exact ⟨rfl, hb, fun _ => hn'⟩

theorem run_window (cmds : List Cmd) : ∀ (s : St) (n : Nat),
    s.cfg.intervalCap ≠ 0 → n ≤ s.cfg.intervalCap →
    (s.isDestroyed = false → n = s.intervalCount) →
    startsOkB s.cfg.intervalCap n (run s cmds).2 = true ∧
    wfold n (run s cmds).2 ≤ s.cfg.intervalCap ∧
    ((run s cmds).1.isDestroyed = false →
      wfold n (run s cmds).2 = (run s cmds).1.intervalCount) := by
  induction cmds with
  | nil =>
    intro s n _ hb hn
    exact ⟨rfl, hb, hn⟩
  | cons c cs ih =>
    intro s n hcap hb hn
    obtain ⟨s1, s2, s3⟩ := step_window s c n hcap hb hn
    have hcfg : (step s c).1.cfg = s.cfg := step_char s c
    obtain ⟨t1, t2, t3⟩ := ih (step s c).1 (wfold n (step s c).2)
      (by rw [hcfg]; exact hcap) (by rw [hcfg]; exact s2) s3
    rw [hcfg] at t1 t2
    have hsplit : (run s (c :: cs)).2 = (step s c).2 ++ (run (step s c).1 cs).2 := rfl
    have hst : (run s (c :: cs)).1 = (run (step s c).1 cs).1 := rfl
    rw [hsplit, hst]
    refine ⟨?_, ?_, ?_⟩
    · rw [startsOkB_append]
      simp only [Bool.and_eq_true]
      exact ⟨s1, t1⟩
    · rw [wfold_append]
      exact t2
    · intro hdd
      rw [wfold_append]
      exact t3 hdd

/-- Labels carrying a some-payload other than j are j-free. -/
theorem emitL_idfree_some (s : St) (ev : Ev) (i j : String) (h : i ≠ j) :
    (emitL s ev (some i)).all (idFreeB j) = true := by
  rw [List.all_eq_true]
  intro l hl
  obtain ⟨lid, rfl⟩ := emitL_shape s ev (some i) l hl
  simpa [idFreeB] using h

theorem emitL_idfree_none (s : St) (ev : Ev) (j : String) :
    (emitL s ev none).all (idFreeB j) = true := by
  rw [List.all_eq_true]
  intro l hl
  obtain ⟨lid, rfl⟩ := emitL_shape s ev none l hl
  rfl

/-- Starting a run of a different job keeps j out of the registry and the
pending-run list and produces only j-free labels. -/
theorem runJobStart_idclear (s : St) (item : JobItem) (j : String)
    (hid : item.opts.id ≠ j) (hm : mapGet s.jobMap j = none)
    (hinf : ∀ e ∈ s.inflight, e.id ≠ j) :
    mapGet (runJobStart s item).1.jobMap j = none ∧
    (∀ e ∈ (runJobStart s item).1.inflight, e.id ≠ j) ∧
    (runJobStart s item).2.all (idFreeB j) = true := by
  have hmg := runJobStart_mapGet_none s item j hm
  refine ⟨hmg, ?_, ?_⟩
  · unfold runJobStart
    split
    · exact hinf
    · dsimp only
      repeat' split
      all_goals simp only [finallyCleanup_eq]
      all_goals first
        | exact hinf
        | (intro e he
           rcases List.mem_append.1 he with h | h
           · exact hinf e h
           · simp only [List.mem_singleton] at h
             subst h
             exact hid)
  · unfold runJobStart
    split
    · rfl
    · dsimp only
      repeat' split
      all_goals first
        | rfl
        | (rw [List.all_append]
           simp only [Bool.and_eq_true]
           exact ⟨emitL_idfree_some _ _ _ _ hid, emitL_idfree_some _ _ _ _ hid⟩)
        | (rw [List.all_cons]
           simp only [Bool.and_eq_true]
           refine ⟨by simpa [idFreeB] using hid, emitL_idfree_some _ _ _ _ hid⟩)

/-- The dispatch loop never touches j when j is absent from the registry,
queue and pending runs, and all its labels are j-free. -/
theorem processLoop_idclear : ∀ (fuel : Nat) (s : St) (j : String),
    mapGet s.jobMap j = none →
    (∀ e ∈ s.queue, e.value.opts.id ≠ j) →
    (∀ e ∈ s.inflight, e.id ≠ j) →
    mapGet (processLoop fuel s).1.jobMap j = none ∧
    (∀ e ∈ (processLoop fuel s).1.queue, e.value.opts.id ≠ j) ∧
    (∀ e ∈ (processLoop fuel s).1.inflight, e.id ≠ j) ∧
    (processLoop fuel s).2.all (idFreeB j) = true := by
  intro fuel
  induction fuel with
  | zero => intro s j h1 h2 h3; exact ⟨h1, h2, h3, rfl⟩
  | succ n ih =>
    intro s j h1 h2 h3
    unfold processLoop
    split
    · split
      · exact ⟨h1, h2, h3, rfl⟩
      · rename_i item q' heq
        obtain ⟨best, hf, hv, hq⟩ := PQ.dequeue_some heq
        have hbest := PQ.findHighest_mem hf
        have hitem : item.opts.id ≠ j := by rw [hv]; exact h2 best hbest
        have hq' : ∀ e ∈ q', e.value.opts.id ≠ j := by
          intro e he
          rw [hq] at he
          exact h2 e (List.mem_filter.1 he).1
        dsimp only
        split
        · obtain ⟨g1, g2, g3, g4⟩ := ih { s with queue := q' } j h1 hq' h3
          refine ⟨g1, g2, g3, ?_⟩
          rw [List.cons_append, List.all_cons, List.all_append]
          simp only [Bool.and_eq_true]
          exact ⟨by simpa [idFreeB] using hitem,
                 emitL_idfree_none _ _ _, g4⟩
        · obtain ⟨r1m, r1i, r1l⟩ :=
            runJobStart_idclear { s with queue := q' } item j hitem h1 h3
          have hrq : (runJobStart { s with queue := q' } item).1.queue = q' :=
            (runJobStart_char { s with queue := q' } item).2.2.2.2.1
          have hq2 : ∀ e ∈ (runJobStart { s with queue := q' } item).1.queue,
              e.value.opts.id ≠ j := by rw [hrq]; exact hq'
          split
          · split
            · exact ⟨r1m, hq2, r1i, r1l⟩
            · obtain ⟨g1, g2, g3, g4⟩ := ih
                { (runJobStart { s with queue := q' } item).1 with
                  intervalCount :=
                    (runJobStart { s with queue := q' } item).1.intervalCount + 1 }
                j r1m hq2 r1i
              refine ⟨g1, g2, g3, ?_⟩
              rw [List.all_append]
              simp only [Bool.and_eq_true]
              exact ⟨r1l, g4⟩
          · obtain ⟨g1, g2, g3, g4⟩ := ih
              (runJobStart { s with queue := q' } item).1 j r1m hq2 r1i
            refine ⟨g1, g2, g3, ?_⟩
            rw [List.all_append]
            simp only [Bool.and_eq_true]
            exact ⟨r1l, g4⟩
    · exact ⟨h1, h2, h3, rfl⟩

theorem processNextJobs_idclear (s : St) (j : String)
    (h1 : mapGet s.jobMap j = none)
    (h2 : ∀ e ∈ s.queue, e.value.opts.id ≠ j)
    (h3 : ∀ e ∈ s.inflight, e.id ≠ j) :
    mapGet (processNextJobs s).1.jobMap j = none ∧
    (∀ e ∈ (processNextJobs s).1.queue, e.value.opts.id ≠ j) ∧
    (∀ e ∈ (processNextJobs s).1.inflight, e.id ≠ j) ∧
    (processNextJobs s).2.all (idFreeB j) = true := by
  unfold processNextJobs
  split
  · exact ⟨h1, h2, h3, rfl⟩
  · split
    · exact ⟨h1, h2, h3, rfl⟩
    · obtain ⟨g1, g2, g3, g4⟩ := processLoop_idclear s.queue.length s j h1 h2 h3
      dsimp only
      split
      · split
        · refine ⟨g1, g2, g3, ?_⟩
          rw [List.all_append, List.all_append]
          simp only [Bool.and_eq_true]
          refine ⟨⟨g4, emitL_idfree_none _ _ _⟩, ?_⟩
          split
          · exact emitL_idfree_none _ _ _
          · rfl
        · exact ⟨g1, g2, g3, g4⟩
      · exact ⟨g1, g2, g3, g4⟩

/-- One environment step that is not an add of job id j keeps j absent and
produces only j-free labels. -/
theorem step_idclear (s : St) (c : Cmd) (j : String)
    (hc : notAddOf j c = true)
    (h1 : mapGet s.jobMap j = none)
    (h2 : ∀ e ∈ s.queue, e.value.opts.id ≠ j)
    (h3 : ∀ e ∈ s.inflight, e.id ≠ j) :
    mapGet (step s c).1.jobMap j = none ∧
    (∀ e ∈ (step s c).1.queue, e.value.opts.id ≠ j) ∧
    (∀ e ∈ (step s c).1.inflight, e.id ≠ j) ∧
    (step s c).2.all (idFreeB j) = true := by
  cases c with
  | add p id sig =>
    have hid : id ≠ j := by simpa [notAddOf] using hc
    simp only [step]
    unfold addF
    split
    · exact ⟨h1, h2, h3, rfl⟩
    · dsimp only
      have h1m : mapGet (mapSet s.jobMap id
          ({ priority := p, controller := none, timeoutId := false } : JobInfo)) j =
          none := by
        rw [mapGet_mapSet_ne _ _ _ _ hid]; exact h1
      have hq2 : ∀ e ∈ PQ.enqueue s.queue
          (⟨s.nextTag, ⟨p, sig, id⟩⟩ : JobItem) p, e.value.opts.id ≠ j := by
        intro e he
        unfold PQ.enqueue at he
        rcases List.mem_append.1 he with h | h
        · exact h2 e h
        · simp only [List.mem_singleton] at h
          subst h
          exact hid
      split
      · dsimp only
        obtain ⟨g1, g2, g3, g4⟩ := processNextJobs_idclear
          { s with
            nextTag := s.nextTag + 1,
            jobMap := mapSet s.jobMap id
              { priority := p, controller := none, timeoutId := false },
            queue := PQ.enqueue s.queue
              { tag := s.nextTag,
                opts := { priority := p, signalId := sig, id := id } } p }
          j h1m hq2 h3
        refine ⟨g1, g2, g3, ?_⟩
        rw [List.all_append]
        simp only [Bool.and_eq_true]
        exact ⟨emitL_idfree_some _ _ _ _ hid, g4⟩
      · exact ⟨h1m, hq2, h3, emitL_idfree_some _ _ _ _ hid⟩
  | start =>
    simp only [step]
    unfold startF
    split
    · exact processNextJobs_idclear s j h1 h2 h3
    · exact ⟨h1, h2, h3, rfl⟩
  | pause =>
    simp only [step]
    unfold pauseF
    split
    · exact ⟨h1, h2, h3, rfl⟩
    · exact ⟨h1, h2, h3, emitL_idfree_none _ _ _⟩
  | resume =>
    simp only [step]
    unfold resumeF
    split
    · exact ⟨h1, h2, h3, rfl⟩
    · dsimp only
      obtain ⟨g1, g2, g3, g4⟩ := processNextJobs_idclear
        { s with isPaused := false } j h1 h2 h3
      refine ⟨g1, g2, g3, ?_⟩
      rw [List.all_append]
      simp only [Bool.and_eq_true]
      exact ⟨emitL_idfree_none _ _ _, g4⟩
  | clear =>
    simp only [step]
    unfold clearF
    split
    · exact ⟨h1, h2, h3, rfl⟩
    · refine ⟨mapGet_filter_none h1, ?_, h3, rfl⟩
      intro e he
      simp at he
  | destroy =>
    simp only [step]
    unfold destroyF
    split
    · exact ⟨h1, h2, h3, rfl⟩
    · refine ⟨rfl, ?_, h3, rfl⟩
      intro e he
      simp at he
  | tick =>
    simp only [step]
    unfold tickF
    by_cases hii : s.intervalId = false
    · rw [if_pos hii]
      exact ⟨h1, h2, h3, rfl⟩
    · rw [if_neg hii]
      split
      · exact ⟨h1, h2, h3, rfl⟩
      · dsimp only
        obtain ⟨g1, g2, g3, g4⟩ := processNextJobs_idclear
          { s with intervalCount := 0 } j h1 h2 h3
        refine ⟨g1, g2, g3, ?_⟩
        simp only [List.all_cons, Bool.and_eq_true]
        exact ⟨rfl, g4⟩
  | setPriority id p =>
    simp only [step]
    unfold setPriorityF
    split
    · exact ⟨h1, h2, h3, rfl⟩
    · dsimp only
      cases hget : mapGet s.jobMap id with
      | none =>
        simp only [hget]
        exact ⟨h1, h2, h3, rfl⟩
      | some info =>
        simp only [hget]
        have hidj : id ≠ j := by
          rintro rfl
          rw [h1] at hget
          exact Option.noConfusion hget
        have hqmap : ∀ e ∈ s.queue.map (fun e =>
            if e.value.opts.id = id then
              (⟨p, { e.value with opts := { e.value.opts with priority := p } }⟩ :
                PQ.Entry JobItem)
            else e), e.value.opts.id ≠ j := by
          intro e he
          obtain ⟨a, ha, rfl⟩ := List.mem_map.1 he
          have hpres : (if a.value.opts.id = id then
              (⟨p, { a.value with opts := { a.value.opts with priority := p } }⟩ :
                PQ.Entry JobItem)
              else a).value.opts.id = a.value.opts.id := by
            split <;> rfl
          rw [hpres]
          exact h2 a ha
        split
        · refine ⟨?_, h2, h3, rfl⟩
          rw [mapGet_mapSet_ne _ _ _ _ hidj]
          exact h1
        · split
          · refine ⟨?_, hqmap, h3, rfl⟩
            rw [mapGet_mapSet_ne _ _ _ _ hidj]
            exact h1
          · exact ⟨h1, hqmap, h3, rfl⟩
  | abortJob id =>
    simp only [step]
    unfold abortF
    split
    · exact ⟨h1, h2, h3, rfl⟩
    · dsimp only
      cases hget : mapGet s.jobMap id with
      | none =>
        simp only [hget]
        exact ⟨h1, h2, h3, rfl⟩
      | some info =>
        simp only [hget]
        cases hctrl : info.controller with
        | some ci =>
          simp only [hctrl]
          exact ⟨h1, h2, h3, rfl⟩
        | none =>
          simp only [hctrl]
          have hqf : ∀ e ∈ s.queue.filter
              (fun e => decide (e.value.opts.id ≠ id)), e.value.opts.id ≠ j := by
            intro e he
            exact h2 e (List.mem_filter.1 he).1
          split
          · exact ⟨mapGet_mapDelete_none _ h1, hqf, h3, rfl⟩
          · exact ⟨h1, hqf, h3, rfl⟩
  | listen ev lid =>
    simp only [step]
    unfold onF
    split
    · exact ⟨h1, h2, h3, rfl⟩
    · exact ⟨h1, h2, h3, rfl⟩
  | unlisten ev lid =>
    simp only [step]
    unfold offF
    split
    · exact ⟨h1, h2, h3, rfl⟩
    · exact ⟨h1, h2, h3, rfl⟩
  | finish k ok =>
    simp only [step]
    unfold finishF
    cases hget : s.inflight.get? k with
    | none =>
      simp only [hget]
      exact ⟨h1, h2, h3, rfl⟩
    | some e =>
      simp only [hget]
      have heid : e.id ≠ j := h3 e (List.get?_mem hget)
      have hinf2 : ∀ x ∈ s.inflight.eraseIdx k, x.id ≠ j := fun x hx =>
        h3 x ((List.eraseIdx_sublist s.inflight k).subset hx)
      repeat' split
      all_goals first
        | exact ⟨mapGet_mapDelete_none _ h1, h2, hinf2,
            emitL_idfree_some _ _ _ _ heid⟩
        | (obtain ⟨g1, g2, g3, g4⟩ := processNextJobs_idclear
             { s with inflight := s.inflight.eraseIdx k,
                      ctrls := disarmCtrl s.ctrls e.ctrl,
                      jobMap := mapDelete s.jobMap e.id,
                      running := s.running - 1 }
             j (mapGet_mapDelete_none _ h1) h2 hinf2
           exact ⟨g1, g2, g3, by
             rw [List.all_append]
             simp only [Bool.and_eq_true]
             exact ⟨emitL_idfree_some _ _ _ _ heid, g4⟩⟩)
        | (obtain ⟨g1, g2, g3, g4⟩ := processNextJobs_idclear
             { s with inflight := s.inflight.eraseIdx k,
                      jobMap := mapDelete s.jobMap e.id,
                      running := s.running - 1 }
             j (mapGet_mapDelete_none _ h1) h2 hinf2
           exact ⟨g1, g2, g3, by
             rw [List.all_append]
             simp only [Bool.and_eq_true]
             exact ⟨emitL_idfree_some _ _ _ _ heid, g4⟩⟩)
  | fireTimeout ci =>
    simp only [step]
    unfold fireTimeoutF
    repeat' split
    all_goals exact ⟨h1, h2, h3, rfl⟩
  | abortExternal sig =>
    simp only [step]
    unfold abortExternalF
    split
    · exact ⟨h1, h2, h3, rfl⟩
    · exact ⟨h1, h2, h3, rfl⟩

/-- Runs of commands that never re-add job id j produce only j-free labels
from a j-clear state. -/
theorem run_idclear (cmds : List Cmd) : ∀ (s : St) (j : String),
    (∀ c ∈ cmds, notAddOf j c = true) →
    mapGet s.jobMap j = none →
    (∀ e ∈ s.queue, e.value.opts.id ≠ j) →
    (∀ e ∈ s.inflight, e.id ≠ j) →
    (run s cmds).2.all (idFreeB j) = true := by
  induction cmds with
  | nil => intro s j _ _ _ _; rfl
  | cons c cs ih =>
    intro s j hcs h1 h2 h3
    obtain ⟨g1, g2, g3, g4⟩ := step_idclear s c j (hcs c (by simp)) h1 h2 h3
    have hsplit : (run s (c :: cs)).2 =
        (step s c).2 ++ (run (step s c).1 cs).2 := rfl
    rw [hsplit, List.all_append]
    simp only [Bool.and_eq_true]
    exact ⟨g4, ih (step s c).1 j
      (fun c2 hc2 => hcs c2 (by simp [hc2])) g1 g2 g3⟩

/-- A successful abort of a still-pending tracked job deletes its registry
entry, removes every queue entry carrying its id and leaves the pending
runs untouched. -/
theorem abortF_pending_clears (s : St) (j : String) (info : JobInfo)
    (hget : mapGet s.jobMap j = some info) (hpend : info.controller = none)
    (hd : s.isDestroyed = false) (hok : (abortF s j).1 = true) :
    mapGet (abortF s j).2.jobMap j = none ∧
    (∀ e ∈ (abortF s j).2.queue, e.value.opts.id ≠ j) ∧
    (abortF s j).2.inflight = s.inflight := by
  unfold abortF at hok ⊢
  rw [if_neg (by simp [hd])] at hok ⊢
  simp only [hget, hpend] at hok ⊢
  by_cases hfound : s.queue.any (fun e => decide (e.value.opts.id = j)) = true
  · rw [if_pos hfound]
    refine ⟨mapGet_mapDelete_self _ _, ?_, rfl⟩
    intro e he
    simpa using (List.mem_filter.1 he).2
  · rw [if_neg hfound] at hok
    exact absurd hok (by simp)

end JQ

namespace EmitM

/-- Whatever a listener appends, the invocation sequence of a terminating
emission starts with the elements of the array from the iteration index on:
the originally registered listeners are always invoked first, in order. -/
theorem emitGo_orig_prefix (behav : Nat → List Nat) :
    ∀ (fuel i : Nat) (arr out : List Nat),
    emitGo behav fuel i arr = some out →
    ∃ t, out = arr.drop i ++ t := by
  intro fuel
  induction fuel with
  | zero => intro i arr out h; exact Option.noConfusion h
  | succ n ih =>
    intro i arr out h
    unfold emitGo at h
    split at h
    · rename_i hlt
      cases hrec : emitGo behav n (i+1) (arr ++ behav (arr.get ⟨i, hlt⟩)) with
      | none => rw [hrec] at h; exact Option.noConfusion h
      | some rest =>
        rw [hrec] at h
        obtain ⟨t, ht⟩ := ih (i+1) _ rest hrec
        have hout : out = arr.get ⟨i, hlt⟩ :: rest := by
          injection h with h2
          exact h2.symm
        have hdrop : (arr ++ behav (arr.get ⟨i, hlt⟩)).drop (i+1) =
            arr.drop (i+1) ++ behav (arr.get ⟨i, hlt⟩) :=
          List.drop_append_of_le_length hlt
        refine ⟨behav (arr.get ⟨i, hlt⟩) ++ t, ?_⟩
        rw [hout, ht, hdrop, List.drop_eq_get_cons hlt]
        simp only [List.cons_append, List.append_assoc]
    · rename_i hge
      have hout : out = [] := by
        injection h with h2
        exact h2.symm
      refine ⟨[], ?_⟩
      rw [hout, List.drop_eq_nil_of_le (by omega)]
      rfl

/-- When no listener appends anything, emission with enough fuel invokes
exactly the remaining registered listeners. -/
theorem emitGo_no_reentry (behav : Nat → List Nat)
    (hb : ∀ x, behav x = []) :
    ∀ (k i : Nat) (arr : List Nat), arr.length ≤ i + k →
    emitGo behav (k+1) i arr = some (arr.drop i) := by
  intro k
  induction k with
  | zero =>
    intro i arr hle
    unfold emitGo
    rw [dif_neg (by omega)]
    rw [List.drop_eq_nil_of_le (by omega)]
  | succ n ih =>
    intro i arr hle
    unfold emitGo
    by_cases hlt : i < arr.length
    · rw [dif_pos hlt]
      rw [hb, List.append_nil]
      rw [ih (i+1) arr (by omega)]
      rw [List.drop_eq_get_cons hlt]
    · rw [dif_neg hlt]
      rw [List.drop_eq_nil_of_le (by omega)]

end EmitM

/-! ## Claim theorems for the Priority Selector -/

/-- C1: for every sequence of enqueues into the priority selector, repeated
dequeue returns entries in non-increasing priority order; among entries of
equal priority the extraction order is the insertion order (the run's
equal-priority entries form a sublist of the queue's), because the strict
greater-than scan always selects the first entry among those tied for the
maximum. -/
theorem priority_selector_extract_order {α : Type} [DecidableEq α]
    (q : List (PQ.Entry α)) :
    List.Chain' (fun a b => b.priority ≤ a.priority) (PQ.extractRun q) ∧
    (∀ p : Int,
      List.Sublist ((PQ.extractRun q).filter (fun e => decide (e.priority = p)))
        (q.filter (fun e => decide (e.priority = p)))) ∧
    (∀ best, PQ.findHighest q = some best → PQ.IsFirstMax q best) :=
  ⟨PQ.extractRunAux_chain _ _,
   fun p => PQ.extractRunAux_filter_sublist _ _ p,
   fun _ h => PQ.findHighest_isFirstMax h⟩

/-- C2 counterexample: on a selector holding two entries with an identical
(priority, value) pair, one dequeue removes both entries — the length drops
from 2 to 0, not by exactly 1, because the rebuild drops every entry whose
priority and value match the selected one. -/
theorem priority_selector_dequeue_duplicate_cex :
    (PQ.dequeue ([⟨1, 0⟩, ⟨1, 0⟩] : List (PQ.Entry Nat))).1 = some 0 ∧
    (PQ.dequeue ([⟨1, 0⟩, ⟨1, 0⟩] : List (PQ.Entry Nat))).2 = [] ∧
    ([⟨1, 0⟩, ⟨1, 0⟩] : List (PQ.Entry Nat)).length = 2 :=
  ⟨rfl, rfl, rfl⟩

/-- C2 amended: when no two entries of the selector carry an identical
(priority, value) pair — which holds in particular when the values are
distinct object identities, as in the scheduler's use — dequeue removes
exactly the selected highest-priority entry, leaves every other entry in
its original relative order, and decreases the length by exactly 1. -/
theorem priority_selector_dequeue_removes_one {α : Type} [DecidableEq α]
    (q : List (PQ.Entry α)) (best : PQ.Entry α) (hnd : q.Nodup)
    (hf : PQ.findHighest q = some best) :
    (PQ.dequeue q).1 = some best.value ∧ (PQ.dequeue q).2 = q.erase best ∧
    (PQ.dequeue q).2.length + 1 = q.length := by
  have hmem := PQ.findHighest_mem hf
  have h2 : (PQ.dequeue q).2 = q.erase best := by
    simp only [PQ.dequeue, hf]
    exact PQ.filter_keepEntry_eq_erase hnd
  refine ⟨by simp only [PQ.dequeue, hf], h2, ?_⟩
  rw [h2, List.length_erase_of_mem hmem]
  have := List.length_pos_of_mem hmem
  omega

/-- Witness for the amended C2 theorem at a concrete two-entry selector. -/
theorem priority_selector_dequeue_removes_one_witness :
    (PQ.dequeue ([⟨5, 0⟩, ⟨3, 1⟩] : List (PQ.Entry Nat))).1 = some 0 ∧
    (PQ.dequeue ([⟨5, 0⟩, ⟨3, 1⟩] : List (PQ.Entry Nat))).2 =
      ([⟨5, 0⟩, ⟨3, 1⟩] : List (PQ.Entry Nat)).erase ⟨5, 0⟩ ∧
    (PQ.dequeue ([⟨5, 0⟩, ⟨3, 1⟩] : List (PQ.Entry Nat))).2.length + 1 =
      ([⟨5, 0⟩, ⟨3, 1⟩] : List (PQ.Entry Nat)).length :=
  priority_selector_dequeue_removes_one ([⟨5, 0⟩, ⟨3, 1⟩]) ⟨5, 0⟩
    (by decide) (by decide)

/-- C10: with finite integer priorities, dequeue and peek return the empty
sentinel exactly on the empty selector: every non-empty selector yields an
actual value (the scan's first item always beats the -Infinity seed). -/
theorem priority_selector_empty_sentinel {α : Type} [DecidableEq α]
    (q : List (PQ.Entry α)) :
    ((PQ.dequeue q).1 = none ↔ q = []) ∧ (PQ.peek q = none ↔ q = []) := by
  constructor
  · cases hq : q with
    | nil => simp [PQ.dequeue, PQ.findHighest]
    | cons x rest => simp [PQ.dequeue, PQ.findHighest]
  · cases hq : q with
    | nil => simp [PQ.peek, PQ.findHighest]
    | cons x rest => simp [PQ.peek, PQ.findHighest]

/-! ## Claim theorems for the Job Scheduler -/

/-- C3: in every state reachable from a fresh scheduler under any sequence
of public operations, job settlements, timer firings and external aborts,
the running counter never exceeds the configured concurrency limit, and
neither does the activeCount getter. -/
theorem scheduler_active_le_concurrency (cfg : JQ.Config) (cmds : List JQ.Cmd) :
    (JQ.run (JQ.init cfg) cmds).1.running ≤ (cfg.concurrency : Int) ∧
    JQ.activeF (JQ.run (JQ.init cfg) cmds).1 ≤ (cfg.concurrency : Int) := by
  have hinv := JQ.run_inv3 (JQ.init cfg) cmds
    (by unfold JQ.Inv3 JQ.init; dsimp only; omega)
  have hcfg := JQ.run_char (JQ.init cfg) cmds
  unfold JQ.Inv3 at hinv
  rw [hcfg] at hinv
  refine ⟨hinv, ?_⟩
  unfold JQ.activeF
  split
  · omega
  · exact hinv

/-- C5: on a destroyed scheduler every public operation is a no-op or
returns the empty/zero/false sentinel: add returns the empty id and
changes nothing, the queries return zero, the mutators return the state
unchanged, and no event is emitted.  (All operations are total functions
of the model, matching the non-throwing contract.) -/
theorem scheduler_destroyed_noop (s : JQ.St) (h : s.isDestroyed = true) :
    (∀ p id sig, JQ.addF s p id sig = ("", s, [])) ∧
    JQ.startF s = (s, []) ∧
    JQ.pauseF s = (s, []) ∧
    JQ.resumeF s = (s, []) ∧
    JQ.clearF s = s ∧
    JQ.destroyF s = (s, []) ∧
    (∀ id p, JQ.setPriorityF s id p = (false, s)) ∧
    (∀ id, JQ.abortF s id = (false, s)) ∧
    (∀ ev lid, JQ.onF s ev lid = s) ∧
    (∀ ev lid, JQ.offF s ev lid = s) ∧
    (∀ ev lid, JQ.onceF s ev lid = s) ∧
    (∀ ev, JQ.removeAllListenersF s ev = s) ∧
    (∀ lid, JQ.onEmptyF s lid = (s, [])) ∧
    (∀ lid, JQ.onIdleF s lid = (s, [])) ∧
    JQ.sizeF s = 0 ∧ JQ.activeF s = 0 ∧ JQ.pendingF s = 0 ∧
    (∀ ev pay, JQ.emitL s ev pay = []) := by
  refine ⟨fun p id sig => by unfold JQ.addF; simp [h],
          by unfold JQ.startF; simp [h],
          by unfold JQ.pauseF; simp [h],
          by unfold JQ.resumeF; simp [h],
          by unfold JQ.clearF; simp [h],
          by unfold JQ.destroyF; simp [h],
          fun id p => by unfold JQ.setPriorityF; simp [h],
          fun id => by unfold JQ.abortF; simp [h],
          fun ev lid => by unfold JQ.onF; simp [h],
          fun ev lid => by unfold JQ.offF; simp [h],
          fun ev lid => by unfold JQ.onceF; simp [h],
          fun ev => by unfold JQ.removeAllListenersF; simp [h],
          fun lid => by unfold JQ.onEmptyF JQ.onF; simp [h],
          fun lid => by unfold JQ.onIdleF JQ.onF; simp [h],
          by unfold JQ.sizeF; simp [h],
          by unfold JQ.activeF; simp [h],
          by unfold JQ.pendingF; simp [h],
          fun ev pay => by unfold JQ.emitL; simp [h]⟩

/-- Witness for C5 at a concrete destroyed scheduler. -/
theorem scheduler_destroyed_noop_witness :
    JQ.addF JQ.sDead 1 "j" none = ("", JQ.sDead, []) ∧
    JQ.startF JQ.sDead = (JQ.sDead, []) ∧
    JQ.pauseF JQ.sDead = (JQ.sDead, []) ∧
    JQ.resumeF JQ.sDead = (JQ.sDead, []) ∧
    JQ.clearF JQ.sDead = JQ.sDead ∧
    JQ.destroyF JQ.sDead = (JQ.sDead, []) ∧
    JQ.setPriorityF JQ.sDead "j" 2 = (false, JQ.sDead) ∧
    JQ.abortF JQ.sDead "j" = (false, JQ.sDead) ∧
    JQ.onF JQ.sDead JQ.Ev.added 0 = JQ.sDead ∧
    JQ.offF JQ.sDead JQ.Ev.added 0 = JQ.sDead ∧
    JQ.onceF JQ.sDead JQ.Ev.added 0 = JQ.sDead ∧
    JQ.removeAllListenersF JQ.sDead none = JQ.sDead ∧
    JQ.onEmptyF JQ.sDead 0 = (JQ.sDead, []) ∧
    JQ.onIdleF JQ.sDead 0 = (JQ.sDead, []) ∧
    JQ.sizeF JQ.sDead = 0 ∧ JQ.activeF JQ.sDead = 0 ∧ JQ.pendingF JQ.sDead = 0 ∧
    JQ.emitL JQ.sDead JQ.Ev.added none = [] := by
  have T := scheduler_destroyed_noop JQ.sDead (by decide)
  exact ⟨T.1 1 "j" none, T.2.1, T.2.2.1, T.2.2.2.1, T.2.2.2.2.1, T.2.2.2.2.2.1,
    T.2.2.2.2.2.2.1 "j" 2, T.2.2.2.2.2.2.2.1 "j", T.2.2.2.2.2.2.2.2.1 JQ.Ev.added 0,
    T.2.2.2.2.2.2.2.2.2.1 JQ.Ev.added 0, T.2.2.2.2.2.2.2.2.2.2.1 JQ.Ev.added 0,
    T.2.2.2.2.2.2.2.2.2.2.2.1 none, T.2.2.2.2.2.2.2.2.2.2.2.2.1 0,
    T.2.2.2.2.2.2.2.2.2.2.2.2.2.1 0, T.2.2.2.2.2.2.2.2.2.2.2.2.2.2.1,
    T.2.2.2.2.2.2.2.2.2.2.2.2.2.2.2.1, T.2.2.2.2.2.2.2.2.2.2.2.2.2.2.2.2.1,
    T.2.2.2.2.2.2.2.2.2.2.2.2.2.2.2.2.2 JQ.Ev.added none⟩

/-- C7 counterexample: with a PAUSED listener registered, calling pause
twice notifies the listener twice — the second pause call emits a second
PAUSED event, contrary to the claimed idempotence of observable effects. -/
theorem scheduler_pause_twice_emits_cex :
    (JQ.run (JQ.init JQ.cfgA)
        [JQ.Cmd.listen JQ.Ev.paused 3, JQ.Cmd.pause, JQ.Cmd.pause]).2 =
      [JQ.Label.invoke 3 JQ.Ev.paused none, JQ.Label.invoke 3 JQ.Ev.paused none] := by
  decide

/-- C7 amended: a second destroy is a complete no-op (no state change and
no emission), and a second pause leaves the state unchanged, but it emits
the PAUSED event again — the second pause repeats exactly the
notifications of the first instead of emitting nothing. -/
theorem scheduler_pause_destroy_idempotent (s : JQ.St) :
    (JQ.pauseF (JQ.pauseF s).1).1 = (JQ.pauseF s).1 ∧
    (JQ.pauseF (JQ.pauseF s).1).2 = (JQ.pauseF s).2 ∧
    (JQ.destroyF (JQ.destroyF s).1).1 = (JQ.destroyF s).1 ∧
    (JQ.destroyF (JQ.destroyF s).1).2 = [] := by
  by_cases h : s.isDestroyed = true
  · constructor
    · unfold JQ.pauseF; simp [h]
    · constructor
      · unfold JQ.pauseF; simp [h]
      · unfold JQ.destroyF; simp [h]
  · have hb : s.isDestroyed = false := by revert h; cases s.isDestroyed <;> simp
    refine ⟨?_, ?_, ?_, ?_⟩
    · unfold JQ.pauseF; simp [hb]
    · unfold JQ.pauseF JQ.emitL; simp [hb]
    · unfold JQ.destroyF; simp [hb]
    · unfold JQ.destroyF; simp [hb]

/-- C6 counterexample: a pending job whose external signal is already
aborted when the dispatch loop reaches it is skipped without running — the
trace shows only the skip, the queue is drained and nothing is in flight —
yet its registry (jobMap) entry is NOT removed: it is still tracked. -/
theorem scheduler_skipped_keeps_registry_cex :
    (JQ.run (JQ.init JQ.cfgA)
        [JQ.Cmd.abortExternal 7, JQ.Cmd.add 0 "a" (some 7)]).1.jobMap =
      [("a", ⟨0, none, false⟩)] ∧
    (JQ.run (JQ.init JQ.cfgA)
        [JQ.Cmd.abortExternal 7, JQ.Cmd.add 0 "a" (some 7)]).2 =
      [JQ.Label.skipped "a" 0] ∧
    (JQ.run (JQ.init JQ.cfgA)
        [JQ.Cmd.abortExternal 7, JQ.Cmd.add 0 "a" (some 7)]).1.queue = [] ∧
    (JQ.run (JQ.init JQ.cfgA)
        [JQ.Cmd.abortExternal 7, JQ.Cmd.add 0 "a" (some 7)]).1.inflight = [] := by
  refine ⟨rfl, rfl, rfl, rfl⟩

/-- C6 amended: a tracked job's registry entry is removed when the job
finishes (the settlement cleanup deletes it, and no later dispatch pass
reintroduces it) and when a pending job is aborted; but a pending job whose
externally provided cancellation is already signaled at dispatch time is
skipped by the dispatch loop without running and its registry entry is NOT
removed — a skip-only dispatch pass leaves the registry unchanged. -/
theorem scheduler_registry_removal :
    (∀ (s : JQ.St) (k : Nat) (ok : Bool) (e : JQ.InFlight),
      s.inflight.get? k = some e →
      JQ.mapGet (JQ.finishF s k ok).1.jobMap e.id = none) ∧
    (∀ (s : JQ.St) (id : String) (info : JQ.JobInfo),
      JQ.mapGet s.jobMap id = some info → info.controller = none →
      (JQ.abortF s id).1 = true →
      JQ.mapGet (JQ.abortF s id).2.jobMap id = none) ∧
    (∀ s : JQ.St,
      (∀ e ∈ s.queue, JQ.sigAborted s e.value.opts.signalId = true) →
      (JQ.processNextJobs s).1.jobMap = s.jobMap) := by
  refine ⟨?_, ?_, JQ.processNextJobs_allskip⟩
  · intro s k ok e hget
    unfold JQ.finishF
    rw [hget]
    dsimp only
    repeat' split
    all_goals first
      | (apply JQ.processNextJobs_mapGet_none
         exact JQ.mapGet_mapDelete_self _ _)
      | (exact JQ.mapGet_mapDelete_self _ _)
  · intro s id info hm hc hres
    unfold JQ.abortF at hres ⊢
    by_cases hd : s.isDestroyed = true
    · rw [if_pos hd] at hres
      exact absurd hres (by simp)
    · rw [if_neg hd] at hres ⊢
      rw [hm] at hres ⊢
      dsimp only at hres ⊢
      rw [hc] at hres ⊢
      dsimp only at hres ⊢
      by_cases hfound :
          (s.queue.any (fun e => decide (e.value.opts.id = id))) = true
      · rw [if_pos hfound] at hres ⊢
        exact JQ.mapGet_mapDelete_self _ _
      · rw [if_neg hfound] at hres
        exact absurd hres (by simp)

/-- Witness for the amended C6 at concrete schedulers: a settled running
job and an aborted pending job lose their registry entries, while a
skip-only dispatch pass keeps the skipped job's entry. -/
theorem scheduler_registry_removal_witness :
    JQ.mapGet (JQ.finishF JQ.sRunA 0 true).1.jobMap "a" = none ∧
    JQ.mapGet (JQ.abortF JQ.sPendB "b").2.jobMap "b" = none ∧
    (JQ.processNextJobs JQ.sSkipC).1.jobMap = JQ.sSkipC.jobMap := by
  refine ⟨?_, ?_, ?_⟩
  · exact scheduler_registry_removal.1 JQ.sRunA 0 true ⟨"a", 0, false⟩ (by decide)
  · exact scheduler_registry_removal.2.1 JQ.sPendB "b" ⟨0, none, false⟩
      (by decide) (by decide) (by decide)
  · exact scheduler_registry_removal.2.2 JQ.sSkipC (by decide)

/-- C4: with a rate window configured (nonzero cap), along every execution
trace from a fresh scheduler the number of jobs started since the most
recent window reset of the recurring timer never exceeds the cap at any
point of the trace, regardless of the concurrency limit — and while the
scheduler is not destroyed the started-since-reset count of the trace
equals the intervalCount counter, whose increments the skip path (skipped
already-canceled jobs) and the listener notifications bypass. -/
theorem scheduler_rate_window_cap (cfg : JQ.Config) (cmds : List JQ.Cmd)
    (hcap : cfg.intervalCap ≠ 0) :
    JQ.startsOkB cfg.intervalCap 0 (JQ.run (JQ.init cfg) cmds).2 = true ∧
    ((JQ.run (JQ.init cfg) cmds).1.isDestroyed = false →
      JQ.wfold 0 (JQ.run (JQ.init cfg) cmds).2 =
        (JQ.run (JQ.init cfg) cmds).1.intervalCount) := by
  have h := JQ.run_window cmds (JQ.init cfg) 0 hcap (Nat.zero_le _) (fun _ => rfl)
  exact ⟨h.1, h.2.2⟩

/-- Witness for C4: cap 1, two autoStarted adds and a timer tick — only one
start per window is admitted along the concrete trace. -/
theorem scheduler_rate_window_cap_witness :
    JQ.cfgB.intervalCap ≠ 0 ∧
    (JQ.startsOkB JQ.cfgB.intervalCap 0
        (JQ.run (JQ.init JQ.cfgB)
          [JQ.Cmd.add 0 "a" none, JQ.Cmd.add 0 "b" none, JQ.Cmd.tick]).2 = true ∧
     ((JQ.run (JQ.init JQ.cfgB)
          [JQ.Cmd.add 0 "a" none, JQ.Cmd.add 0 "b" none, JQ.Cmd.tick]).1.isDestroyed = false →
       JQ.wfold 0 (JQ.run (JQ.init JQ.cfgB)
          [JQ.Cmd.add 0 "a" none, JQ.Cmd.add 0 "b" none, JQ.Cmd.tick]).2 =
         (JQ.run (JQ.init JQ.cfgB)
          [JQ.Cmd.add 0 "a" none, JQ.Cmd.add 0 "b" none, JQ.Cmd.tick]).1.intervalCount)) :=
  ⟨by decide,
   scheduler_rate_window_cap JQ.cfgB
     [JQ.Cmd.add 0 "a" none, JQ.Cmd.add 0 "b" none, JQ.Cmd.tick] (by decide)⟩

/-- C8: aborting a still-pending tracked job (registered with no controller
yet) with a successful abort call guarantees the job never starts and no
event ever fires for its id — in particular neither COMPLETED nor ERROR —
in any subsequent execution in which that id is not reused by a new add,
provided no pending run already carries the id (ids are unique per live
job). -/
theorem scheduler_abort_pending_silences (s : JQ.St) (j : String)
    (info : JQ.JobInfo) (cmds : List JQ.Cmd)
    (hget : JQ.mapGet s.jobMap j = some info)
    (hpend : info.controller = none)
    (hd : s.isDestroyed = false)
    (hok : (JQ.abortF s j).1 = true)
    (hinf : ∀ e ∈ s.inflight, e.id ≠ j)
    (hcs : ∀ c ∈ cmds, JQ.notAddOf j c = true) :
    (JQ.run (JQ.abortF s j).2 cmds).2.all (JQ.idFreeB j) = true := by
  obtain ⟨g1, g2, g3⟩ := JQ.abortF_pending_clears s j info hget hpend hd hok
  refine JQ.run_idclear cmds (JQ.abortF s j).2 j hcs g1 g2 ?_
  rw [g3]
  exact hinf

/-- Witness for C8: the concrete pending job "b" is aborted successfully
and a subsequent start dispatch produces no label about "b". -/
theorem scheduler_abort_pending_silences_witness :
    JQ.mapGet JQ.sPendB.jobMap "b" =
      some ({ priority := 0, controller := none, timeoutId := false } : JQ.JobInfo) ∧
    (JQ.abortF JQ.sPendB "b").1 = true ∧
    (JQ.run (JQ.abortF JQ.sPendB "b").2 [JQ.Cmd.start]).2.all
      (JQ.idFreeB "b") = true :=
  ⟨by decide, by decide,
   scheduler_abort_pending_silences JQ.sPendB "b"
     { priority := 0, controller := none, timeoutId := false } [JQ.Cmd.start]
     (by decide) (by decide) (by decide) (by decide) (by decide) (by decide)⟩

/-- C9 counterexample: in the live-iteration model of emit, a registered
listener (0) that appends a new listener (1) for the same event during the
synchronous emission causes the appended listener to be invoked for the
in-flight event: the invocation sequence is [0, 1] although listener 1 was
not registered when emission began. -/
theorem scheduler_emit_during_append_cex :
    EmitM.emitRun (fun n => if n = 0 then [1] else []) 3 [0] = some [0, 1] ∧
    (1 : Nat) ∉ ([0] : List Nat) :=
  ⟨rfl, by decide⟩

/-- C9 amended: the listeners registered at the moment emission begins are
all invoked, first and in registration order (every terminating emission's
invocation sequence extends the initial array); and when no invoked
listener mutates the listener list, exactly the initially registered
listeners are invoked.  A listener appended during the synchronous
emission, however, DOES receive the in-flight event, because for..of
iterates the live array. -/
theorem scheduler_emit_live_iteration (behav : Nat → List Nat)
    (arr : List Nat) :
    (∀ fuel out, EmitM.emitRun behav fuel arr = some out →
      ∃ t, out = arr ++ t) ∧
    ((∀ x, behav x = []) →
      EmitM.emitRun behav (arr.length + 1) arr = some arr) := by
  constructor
  · intro fuel out h
    obtain ⟨t, ht⟩ := EmitM.emitGo_orig_prefix behav fuel 0 arr out h
    exact ⟨t, by simpa using ht⟩
  · intro hb
    unfold EmitM.emitRun
    rw [EmitM.emitGo_no_reentry behav hb arr.length 0 arr (by omega)]
    simp

/-- Witness for the amended C9 theorem: the counterexample trace extends
its initial array, and a mutation-free emission invokes exactly the
initial array. -/
theorem scheduler_emit_live_iteration_witness :
    (∃ t, ([0, 1] : List Nat) = [0] ++ t) ∧
    EmitM.emitRun (fun _ => []) 2 [5] = some [5] :=
  ⟨(scheduler_emit_live_iteration (fun n => if n = 0 then [1] else []) [0]).1
      3 [0, 1] (by decide),
   (scheduler_emit_live_iteration (fun _ => []) [5]).2 (fun _ => rfl)⟩
